import Mathlib

/-!
Verification of the word-graph construction and search engine of the
Word Ladder game (`Word-Ladder-Game.py`).

Words are modelled as lists of characters, the word graph
(`self.word_graph`, a `defaultdict(list)`) as an association list from
words to adjacency lists, kept in insertion order.  A `defaultdict`
lookup of a missing key inserts that key with an empty list; `accessD`
models this mutating access, and the search loops thread the graph state
exactly as the Python methods read `self.word_graph[current]`.

The `while frontier` loops are embedded as fuel-indexed recursions
returning `none` when the fuel runs out; `fuelBound` computes a fuel
that is proven sufficient, so the top-level functions agree with the
Python loops, which always terminate.  The `heapq` frontier is modelled
as a list together with `popMin`, which removes the least element under
the lexicographic tuple order that Python uses to compare heap entries;
since entries that compare equal are identical tuples, this has the same
observable behaviour as the binary heap.
-/

namespace WordLadder

abbrev Word := List Char

abbrev WPath := List Word

/-- Association-list model of `self.word_graph` (a Python `defaultdict(list)`):
keys in insertion order, each with its adjacency list. -/
abbrev Graph := List (Word × List Word)

/-- Non-mutating read of the graph: the value of the first entry with the given
key, `[]` when the key is absent (the value a `defaultdict(list)` would give). -/
def lookupD : Graph → Word → List Word
  | [], _ => []
  | e :: g, w => if e.1 = w then e.2 else lookupD g w

/-- The keys of the graph, in order. -/
def keysOf (g : Graph) : List Word :=
  g.map Prod.fst

/-- All words appearing in adjacency lists. -/
def valsOf : Graph → List Word
  | [] => []
  | e :: g => e.2 ++ valsOf g

/-- Mutating read `self.word_graph[w]` of a `defaultdict(list)`: returns the
stored list, and inserts the key with `[]` when it is absent. -/
def accessD : Graph → Word → List Word × Graph
  | [], w => ([], [(w, [])])
  | e :: g, w =>
    if e.1 = w then (e.2, e :: g)
    else
      let r := accessD g w
      (r.1, e :: r.2)

/-- `self.word_graph[k].append(x)`: append `x` to the adjacency list of `k`,
inserting the key first when absent (as the `defaultdict` does). -/
def appendD : Graph → Word → Word → Graph
  | [], k, x => [(k, [x])]
  | e :: g, k, x =>
    if e.1 = k then (e.1, e.2 ++ [x]) :: g
    else e :: appendD g k x

/-- The alphabet string `'abcdefghijklmnopqrstuvwxyz'` iterated over in
`build_word_graph`. -/
def alphabet : List Char :=
  ['a', 'b', 'c', 'd', 'e', 'f', 'g', 'h', 'i', 'j', 'k', 'l', 'm',
   'n', 'o', 'p', 'q', 'r', 's', 't', 'u', 'v', 'w', 'x', 'y', 'z']

/-- `word[:i] + c + word[i+1:]`: replace position `i` of `word` by `c`. -/
def setChar (w : Word) (i : Nat) (c : Char) : Word :=
  w.take i ++ c :: w.drop (i + 1)

/-- The effective dictionary `current_dict = current_dict - self.banned_words`
(the subtraction is only performed in Challenge mode, i.e. when a policy is
present). -/
def effectiveDict (dict : List Word) (policy : Option (List Word × List Char)) : List Word :=
  match policy with
  | some bl => dict.filter (fun w => decide (¬ w ∈ bl.1))
  | none => dict

/-- The restricted-letter set (empty outside Challenge mode). -/
def policyLetters (policy : Option (List Word × List Char)) : List Char :=
  match policy with
  | some bl => bl.2
  | none => []

/-- The body of the innermost loop of `build_word_graph`: for candidate letter
`c`, skip restricted letters (Challenge mode only), form `new_word`, and append
it to `word`'s adjacency list when it is a different word of the effective
dictionary. -/
def tryAdd (current : List Word) (bl : List Char) (useBl : Bool)
    (word : Word) (i : Nat) (g : Graph) (c : Char) : Graph :=
  if useBl = true ∧ c ∈ bl then g
  else
    let nw := setChar word i c
    if nw ∈ current ∧ nw ≠ word then appendD g word nw else g

/-- `for c in 'abcdefghijklmnopqrstuvwxyz': ...` -/
def addLetters (current : List Word) (bl : List Char) (useBl : Bool)
    (word : Word) (i : Nat) (g : Graph) : Graph :=
  alphabet.foldl (tryAdd current bl useBl word i) g

/-- `for i in range(len(word)): ...` -/
def addPositions (current : List Word) (bl : List Char) (useBl : Bool)
    (word : Word) (g : Graph) : Graph :=
  (List.range word.length).foldl (fun g i => addLetters current bl useBl word i g) g

/-- `build_word_graph`: the dictionary is a list (Python iterates over a set in
unspecified order; all claims are order-independent), and `policy` models
Challenge mode with its `(banned_words, restricted_letters)` pair; outside
Challenge mode (`policy = none`) no words are removed and no letters skipped. -/
def build_word_graph (dict : List Word) (policy : Option (List Word × List Char)) : Graph :=
  let current := effectiveDict dict policy
  let bl := policyLetters policy
  current.foldl (fun g w => addPositions current bl policy.isSome w g) []

/-- `heuristic`: `sum(1 for a, b in zip(word, self.target_word) if a != b)`. -/
def heuristic (word target : Word) : Nat :=
  (word.zip target).countP (fun ab => decide (ab.1 ≠ ab.2))

/-! ### The `heapq` order on frontier entries

Python compares heap entries (tuples) lexicographically; strings compare by
code point, lists of strings lexicographically. -/

/-- Python `<` on strings (code-point lexicographic). -/
def wordLtB : Word → Word → Bool
  | [], [] => false
  | [], _ :: _ => true
  | _ :: _, [] => false
  | a :: as, b :: bs => decide (a < b) || (decide (a = b) && wordLtB as bs)

/-- Python `<` on lists of strings. -/
def pathLtB : WPath → WPath → Bool
  | [], [] => false
  | [], _ :: _ => true
  | _ :: _, [] => false
  | a :: as, b :: bs => wordLtB a b || (decide (a = b) && pathLtB as bs)

/-- Python `<` on UCS heap entries `(cost, word, path)`. -/
def ucsLtB (x y : Nat × Word × WPath) : Bool :=
  decide (x.1 < y.1) ||
    (decide (x.1 = y.1) &&
      (wordLtB x.2.1 y.2.1 || (decide (x.2.1 = y.2.1) && pathLtB x.2.2 y.2.2)))

/-- Python `<` on A* heap entries `(priority, cost, word, path)`. -/
def astarLtB (x y : Nat × Nat × Word × WPath) : Bool :=
  decide (x.1 < y.1) || (decide (x.1 = y.1) && ucsLtB x.2 y.2)

/-- `heapq.heappop`: remove the least element (first occurrence among equals;
equal heap entries are identical tuples, so the choice is immaterial). -/
def popMin (lt : α → α → Bool) : List α → Option (α × List α)
  | [] => none
  | [x] => some (x, [])
  | x :: y :: ys =>
    match popMin lt (y :: ys) with
    | none => some (x, [])
    | some (m, rest) => if lt m x then some (m, x :: rest) else some (x, y :: ys)

/-! ### The search loops -/

/-- The body of BFS's `for next_word in self.word_graph[current]` loop:
enqueue every neighbour that is not yet explored, marking it explored. -/
def enqueueAll (p : WPath) : List Word → List (Word × WPath) → List Word →
    List (Word × WPath) × List Word
  | [], q, ex => (q, ex)
  | n :: ns, q, ex =>
    if n ∈ ex then enqueueAll p ns q ex
    else enqueueAll p ns (q ++ [(n, p ++ [n])]) (ex ++ [n])

/-- The `while queue` loop of `breadth_first_search`, threading the
`defaultdict` graph state; `none` means the fuel ran out (never happens with
`fuelBound` fuel). -/
def bfsAux (goal : Word) : Nat → List (Word × WPath) → List Word → Graph →
    Option (Option (Nat × WPath) × Graph)
  | 0, _, _, _ => none
  | _ + 1, [], _, g => some (none, g)
  | f + 1, (u, p) :: rest, ex, g =>
    if u = goal then some (some (p.length - 1, p), g)
    else
      let a := accessD g u
      let qe := enqueueAll p a.1 rest ex
      bfsAux goal f qe.1 qe.2 a.2

/-- The `while frontier` loop of `uniform_cost_search`. -/
def ucsAux (goal : Word) : Nat → List (Nat × Word × WPath) → List Word → Graph →
    Option (Option (Nat × WPath) × Graph)
  | 0, _, _, _ => none
  | f + 1, frontier, ex, g =>
    match popMin ucsLtB frontier with
    | none => some (none, g)
    | some ((c, u, p), rest) =>
      if u = goal then some (some (c, p), g)
      else if u ∈ ex then ucsAux goal f rest ex g
      else
        let ex' := u :: ex
        let a := accessD g u
        let pushes := (a.1.filter (fun y => decide (¬ y ∈ ex'))).map
          (fun y => (c + 1, y, p ++ [y]))
        ucsAux goal f (rest ++ pushes) ex' a.2

/-- The `while frontier` loop of `a_star_search`; `h` is
`self.heuristic` (the Hamming distance to the fixed target). -/
def astarAux (h : Word → Nat) (goal : Word) : Nat → List (Nat × Nat × Word × WPath) →
    List Word → Graph → Option (Option (Nat × WPath) × Graph)
  | 0, _, _, _ => none
  | f + 1, frontier, ex, g =>
    match popMin astarLtB frontier with
    | none => some (none, g)
    | some ((_, c, u, p), rest) =>
      if u = goal then some (some (c, p), g)
      else if u ∈ ex then astarAux h goal f rest ex g
      else
        let ex' := u :: ex
        let a := accessD g u
        let pushes := (a.1.filter (fun y => decide (¬ y ∈ ex'))).map
          (fun y => (c + 1 + h y, c + 1, y, p ++ [y]))
        astarAux h goal f (rest ++ pushes) ex' a.2

/-- The body of `check_path_exists`'s `for next_word in self.word_graph[word]`
loop: return `none` as soon as the target is seen, otherwise extend the
visited set and queue. -/
def cpeScan (target : Word) : List Word → List Word → List Word →
    Option (List Word × List Word)
  | [], vis, q => some (vis, q)
  | n :: ns, vis, q =>
    if n = target then none
    else if n ∈ vis then cpeScan target ns vis q
    else cpeScan target ns (vis ++ [n]) (q ++ [n])

/-- The `while queue` loop of `check_path_exists`. -/
def cpeAux (target : Word) : Nat → List Word → List Word → Graph →
    Option (Bool × Graph)
  | 0, _, _, _ => none
  | _ + 1, [], _, g => some (false, g)
  | f + 1, w :: rest, vis, g =>
    let a := accessD g w
    match cpeScan target a.1 vis rest with
    | none => some (true, a.2)
    | some vq => cpeAux target f vq.2 vq.1 a.2

/-- All words the searches can ever place on a frontier: the start word plus
every word appearing in an adjacency list. -/
def cands (g : Graph) (start : Word) : List Word :=
  start :: valsOf g

/-- Remaining expansion capacity: for each not-yet-explored candidate word,
one enqueue plus the length of its adjacency list. -/
def capSum (adj : Word → List Word) (ex cs : List Word) : Nat :=
  ((cs.filter (fun w => decide (¬ w ∈ ex))).map (fun w => 1 + (adj w).length)).sum

/-- A fuel provably larger than the number of iterations any of the four
loops can perform on graph `g` from `start`. -/
def fuelBound (g : Graph) (start : Word) : Nat :=
  capSum (lookupD g) [] (cands g start) + 2

/-- `breadth_first_search`: returns the Python `(cost, path)` pair
(`none` standing for `None, None`) together with the final graph state. -/
def breadth_first_search (g : Graph) (start goal : Word) :
    Option (Nat × WPath) × Graph :=
  match bfsAux goal (fuelBound g start) [(start, [start])] [start] g with
  | some r => r
  | none => (none, g)

/-- `uniform_cost_search`. -/
def uniform_cost_search (g : Graph) (start goal : Word) :
    Option (Nat × WPath) × Graph :=
  match ucsAux goal (fuelBound g start) [(0, start, [start])] [] g with
  | some r => r
  | none => (none, g)

/-- `a_star_search`; the heuristic compares against the goal word
(`self.target_word`). -/
def a_star_search (g : Graph) (start goal : Word) :
    Option (Nat × WPath) × Graph :=
  match astarAux (fun w => heuristic w goal) goal (fuelBound g start)
      [(heuristic start goal, 0, start, [start])] [] g with
  | some r => r
  | none => (none, g)

/-- `check_path_exists`. -/
def check_path_exists (g : Graph) (start target : Word) : Bool × Graph :=
  if start = target then (true, g)
  else
    match cpeAux target (fuelBound g start) [start] [start] g with
    | some r => r
    | none => (false, g)

/-! ### Pure (graph-invariant) versions of the loops, used for proofs

A `defaultdict` access never changes the value any lookup returns, so each
threaded loop computes the same result as its pure counterpart over the fixed
neighbour function `lookupD g`. -/

/-- Pure BFS loop over an abstract neighbour function. -/
def bfsP (adj : Word → List Word) (goal : Word) : Nat → List (Word × WPath) →
    List Word → Option (Option (Nat × WPath))
  | 0, _, _ => none
  | _ + 1, [], _ => some none
  | f + 1, (u, p) :: rest, ex =>
    if u = goal then some (some (p.length - 1, p))
    else
      let qe := enqueueAll p (adj u) rest ex
      bfsP adj goal f qe.1 qe.2

/-- Pure UCS loop. -/
def ucsP (adj : Word → List Word) (goal : Word) : Nat → List (Nat × Word × WPath) →
    List Word → Option (Option (Nat × WPath))
  | 0, _, _ => none
  | f + 1, frontier, ex =>
    match popMin ucsLtB frontier with
    | none => some none
    | some ((c, u, p), rest) =>
      if u = goal then some (some (c, p))
      else if u ∈ ex then ucsP adj goal f rest ex
      else
        let ex' := u :: ex
        let pushes := ((adj u).filter (fun y => decide (¬ y ∈ ex'))).map
          (fun y => (c + 1, y, p ++ [y]))
        ucsP adj goal f (rest ++ pushes) ex'

/-- Pure A* loop. -/
def astarP (adj : Word → List Word) (h : Word → Nat) (goal : Word) : Nat →
    List (Nat × Nat × Word × WPath) → List Word → Option (Option (Nat × WPath))
  | 0, _, _ => none
  | f + 1, frontier, ex =>
    match popMin astarLtB frontier with
    | none => some none
    | some ((_, c, u, p), rest) =>
      if u = goal then some (some (c, p))
      else if u ∈ ex then astarP adj h goal f rest ex
      else
        let ex' := u :: ex
        let pushes := ((adj u).filter (fun y => decide (¬ y ∈ ex'))).map
          (fun y => (c + 1 + h y, c + 1, y, p ++ [y]))
        astarP adj h goal f (rest ++ pushes) ex'

/-- Pure `check_path_exists` loop. -/
def cpeP (adj : Word → List Word) (target : Word) : Nat → List Word → List Word →
    Option Bool
  | 0, _, _ => none
  | _ + 1, [], _ => some false
  | f + 1, w :: rest, vis =>
    match cpeScan target (adj w) vis rest with
    | none => some true
    | some vq => cpeP adj target f vq.2 vq.1

/-! ### Instrumented loops for the exploration-discipline claims

These mirror `ucsAux`/`astarAux` exactly but additionally return the list of
words expanded (in expansion order) and the final explored set. -/

/-- `ucsAux` instrumented with the expansion trace and final explored set. -/
def ucsT (goal : Word) : Nat → List (Nat × Word × WPath) → List Word → Graph →
    Option (Option (Nat × WPath) × Graph) × List Word × List Word
  | 0, _, ex, _ => (none, [], ex)
  | f + 1, frontier, ex, g =>
    match popMin ucsLtB frontier with
    | none => (some (none, g), [], ex)
    | some ((c, u, p), rest) =>
      if u = goal then (some (some (c, p), g), [], ex)
      else if u ∈ ex then ucsT goal f rest ex g
      else
        let ex' := u :: ex
        let a := accessD g u
        let pushes := (a.1.filter (fun y => decide (¬ y ∈ ex'))).map
          (fun y => (c + 1, y, p ++ [y]))
        let r := ucsT goal f (rest ++ pushes) ex' a.2
        (r.1, u :: r.2.1, r.2.2)

/-- `astarAux` instrumented with the expansion trace and final explored set. -/
def astarT (h : Word → Nat) (goal : Word) : Nat → List (Nat × Nat × Word × WPath) →
    List Word → Graph → Option (Option (Nat × WPath) × Graph) × List Word × List Word
  | 0, _, ex, _ => (none, [], ex)
  | f + 1, frontier, ex, g =>
    match popMin astarLtB frontier with
    | none => (some (none, g), [], ex)
    | some ((_, c, u, p), rest) =>
      if u = goal then (some (some (c, p), g), [], ex)
      else if u ∈ ex then astarT h goal f rest ex g
      else
        let ex' := u :: ex
        let a := accessD g u
        let pushes := (a.1.filter (fun y => decide (¬ y ∈ ex'))).map
          (fun y => (c + 1 + h y, c + 1, y, p ++ [y]))
        let r := astarT h goal f (rest ++ pushes) ex' a.2
        (r.1, u :: r.2.1, r.2.2)

/-! ### Path and reachability notions -/

/-- `Reach adj u v n`: `v` is reachable from `u` in exactly `n` adjacency
steps. -/
inductive Reach (adj : Word → List Word) : Word → Word → Nat → Prop
  | refl (w : Word) : Reach adj w w 0
  | step {u v t : Word} {n : Nat} :
      v ∈ adj u → Reach adj v t n → Reach adj u t (n + 1)

/-- `p` is a path of adjacency steps from `s` to `w`. -/
def IsPathTo (adj : Word → List Word) (s : Word) (p : WPath) (w : Word) : Prop :=
  p.head? = some s ∧ p.getLast? = some w ∧ List.Chain' (fun a b => b ∈ adj a) p

/-- Two words of equal length that differ in exactly one character position
(the zip-count is exactly the source's `heuristic`). -/
def oneDiff (u v : Word) : Prop :=
  u.length = v.length ∧ heuristic u v = 1

/-- All words of the graph: its keys together with all adjacency-list words. -/
def wordsOf (g : Graph) : List Word :=
  keysOf g ++ valsOf g

/-- Loop invariant of `breadth_first_search` (queue entries carry valid paths,
depths span at most two consecutive levels, every enqueued word is explored,
every reachable unexplored word is covered by a queue entry within its true
distance, and recorded depths are optimal). -/
structure BfsInv (adj : Word → List Word) (s goal : Word)
    (q : List (Word × WPath)) (ex : List Word) : Prop where
  valid : ∀ e ∈ q, IsPathTo adj s e.2 e.1
  seg : ∃ L q1 q2, q = q1 ++ q2 ∧ 1 ≤ L ∧ (∀ e ∈ q1, e.2.length = L) ∧
    (∀ e ∈ q2, e.2.length = L + 1)
  inE : ∀ e ∈ q, e.1 ∈ ex
  nd : (q.map Prod.fst).Nodup
  ret : ∀ v ∈ ex, ¬ v ∈ q.map Prod.fst → ∀ y ∈ adj v, y ∈ ex
  cov : ∀ z n, Reach adj s z n → ¬ z ∈ ex →
    ∃ e ∈ q, ∃ m, Reach adj e.1 z m ∧ e.2.length - 1 + m ≤ n
  opt : ∀ e ∈ q, ∀ n, Reach adj s e.1 n → e.2.length - 1 ≤ n
  gq : goal ∈ ex → goal ∈ q.map Prod.fst

/-- Loop invariant of the best-first loops (`uniform_cost_search` via the
zero heuristic, `a_star_search`): frontier entries carry valid costed paths
with priority `cost + h word`, every reachable unexplored word is covered by a
frontier entry within its true distance, every explored word's neighbours are
explored or queued one step above that word's optimal cost, and the goal is
never marked explored. -/
structure AstarInv (adj : Word → List Word) (h : Word → Nat) (s goal : Word)
    (fr : List (Nat × Nat × Word × WPath)) (ex : List Word) : Prop where
  valid : ∀ e ∈ fr, IsPathTo adj s e.2.2.2 e.2.2.1 ∧ e.2.2.2.length = e.2.1 + 1 ∧
    e.1 = e.2.1 + h e.2.2.1
  cut : ∀ z n, Reach adj s z n → ¬ z ∈ ex →
    ∃ e ∈ fr, ∃ m, Reach adj e.2.2.1 z m ∧ e.2.1 + m ≤ n
  eb : ∀ v ∈ ex, ∀ y ∈ adj v, y ∈ ex ∨
    ∃ e ∈ fr, e.2.2.1 = y ∧ ∀ n, Reach adj s v n → e.2.1 ≤ n + 1
  ge : ¬ goal ∈ ex

/-- Shorthand used in witness statements for concrete words. -/
def wd (s : String) : Word :=
  s.toList

end WordLadder

namespace WordLadder

/-! ### Basic lemmas about the association-list graph -/

theorem lookupD_appendD (g : Graph) (k x w : Word) :
    lookupD (appendD g k x) w = if k = w then lookupD g w ++ [x] else lookupD g w := by
  induction g with
  | nil =>
    simp only [appendD, lookupD]
    by_cases h : k = w <;> simp [h]
  | cons e g ih =>
    simp only [appendD]
    by_cases hek : e.1 = k
    · rw [if_pos hek]
      by_cases hw : e.1 = w
      · have hkw : k = w := hek ▸ hw
        simp [lookupD, hw, hkw]
      · have hkw : ¬ k = w := fun h => hw (hek.trans h)
        simp [lookupD, hw, hkw]
    · rw [if_neg hek]
      by_cases hw : e.1 = w
      · have hkw : ¬ k = w := fun h => hek (hw.trans h.symm)
        simp [lookupD, hw, hkw]
      · simp [lookupD, hw, ih]

theorem accessD_fst (g : Graph) (w : Word) : (accessD g w).1 = lookupD g w := by
  induction g with
  | nil => simp [accessD, lookupD]
  | cons e g ih =>
    simp only [accessD, lookupD]
    by_cases h : e.1 = w <;> simp [h, ih]

theorem lookupD_accessD (g : Graph) (w x : Word) :
    lookupD (accessD g w).2 x = lookupD g x := by
  induction g with
  | nil =>
    simp only [accessD, lookupD]
    by_cases h : w = x <;> simp [h, lookupD]
  | cons e g ih =>
    simp only [accessD]
    by_cases h : e.1 = w <;> simp [lookupD, h, ih]

theorem keysOf_accessD (g : Graph) (w : Word) :
    keysOf (accessD g w).2 = keysOf g ∨ keysOf (accessD g w).2 = keysOf g ++ [w] := by
  induction g with
  | nil => right; simp [accessD, keysOf]
  | cons e g ih =>
    simp only [accessD]
    by_cases h : e.1 = w
    · left; rw [if_pos h]
    · rw [if_neg h]
      rcases ih with h2 | h2
      · left
        simp only [keysOf, List.map_cons] at h2 ⊢
        rw [h2]
      · right
        simp only [keysOf, List.map_cons, List.cons_append] at h2 ⊢
        rw [h2]

theorem lookupD_eq_nil_of_not_mem_keys (g : Graph) (w : Word) (h : ¬ w ∈ keysOf g) :
    lookupD g w = [] := by
  induction g with
  | nil => rfl
  | cons e g ih =>
    simp only [keysOf, List.map_cons, List.mem_cons, not_or] at h
    simp only [lookupD]
    rw [if_neg (fun hh => h.1 hh.symm)]
    exact ih (by simpa [keysOf] using h.2)

theorem mem_valsOf_of_mem_lookupD {g : Graph} {u v : Word} (h : v ∈ lookupD g u) :
    v ∈ valsOf g := by
  induction g with
  | nil => simp [lookupD] at h
  | cons e g ih =>
    simp only [lookupD] at h
    simp only [valsOf, List.mem_append]
    by_cases he : e.1 = u
    · rw [if_pos he] at h; exact Or.inl h
    · rw [if_neg he] at h; exact Or.inr (ih h)

/-! ### Lemmas about `setChar` -/

theorem setChar_cons_zero (a : Char) (w : Word) (c : Char) :
    setChar (a :: w) 0 c = c :: w := rfl

theorem setChar_cons_succ (a : Char) (w : Word) (i : Nat) (c : Char) :
    setChar (a :: w) (i + 1) c = a :: setChar w i c := rfl

theorem setChar_length {w : Word} {i : Nat} (c : Char) (h : i < w.length) :
    (setChar w i c).length = w.length := by
  induction w generalizing i with
  | nil => simp at h
  | cons a w ih =>
    cases i with
    | zero => simp [setChar_cons_zero]
    | succ j =>
      simp only [setChar_cons_succ, List.length_cons]
      rw [ih (by simpa using h)]

theorem get?_setChar_self {w : Word} {i : Nat} (c : Char) (h : i < w.length) :
    (setChar w i c).get? i = some c := by
  induction w generalizing i with
  | nil => simp at h
  | cons a w ih =>
    cases i with
    | zero => simp [setChar_cons_zero]
    | succ j => simpa [setChar_cons_succ] using ih (by simpa using h)

theorem get?_setChar_ne (w : Word) (i j : Nat) (c : Char) (h : j ≠ i) :
    (setChar w i c).get? j = w.get? j ∨ i ≥ w.length := by
  induction w generalizing i j with
  | nil => right; simp
  | cons a w ih =>
    cases i with
    | zero =>
      cases j with
      | zero => exact absurd rfl h
      | succ jj => left; simp [setChar_cons_zero]
    | succ ii =>
      cases j with
      | zero => left; simp [setChar_cons_succ]
      | succ jj =>
        rcases ih ii jj (fun hh => h (by simp [hh])) with h2 | h2
        · left; simpa [setChar_cons_succ] using h2
        · right; simpa using h2

theorem setChar_eq_self {w : Word} {i : Nat} {c : Char}
    (h : i < w.length) (hc : w.get? i = some c) : setChar w i c = w := by
  induction w generalizing i with
  | nil => simp at h
  | cons a w ih =>
    cases i with
    | zero =>
      simp only [List.get?] at hc
      cases hc
      simp [setChar_cons_zero]
    | succ j =>
      simp only [setChar_cons_succ]
      rw [ih (by simpa using h) (by simpa using hc)]

/-! ### Characterization of `build_word_graph` -/

theorem mem_lookupD_foldl_letters (cur : List Word) (bl : List Char) (ub : Bool)
    (word : Word) (i : Nat) (l : List Char) (g : Graph) (u v : Word) :
    (v ∈ lookupD (l.foldl (tryAdd cur bl ub word i) g) u ↔
      v ∈ lookupD g u ∨ (u = word ∧ ∃ c ∈ l, ¬(ub = true ∧ c ∈ bl) ∧
        setChar word i c ∈ cur ∧ setChar word i c ≠ word ∧ v = setChar word i c)) := by
  induction l generalizing g with
  | nil => simp
  | cons c l ih =>
    simp only [List.foldl_cons]
    rw [ih]
    have step : v ∈ lookupD (tryAdd cur bl ub word i g c) u ↔
        v ∈ lookupD g u ∨ (u = word ∧ ¬(ub = true ∧ c ∈ bl) ∧
          setChar word i c ∈ cur ∧ setChar word i c ≠ word ∧ v = setChar word i c) := by
      unfold tryAdd
      by_cases hskip : ub = true ∧ c ∈ bl
      · simp [hskip]
      · rw [if_neg hskip]
        by_cases hadd : setChar word i c ∈ cur ∧ setChar word i c ≠ word
        · rw [if_pos hadd, lookupD_appendD]
          by_cases hu : word = u
          · subst hu
            simp [hskip, hadd.1, hadd.2]
          · simp only [if_neg hu]
            constructor
            · intro hh; exact Or.inl hh
            · rintro (hh | ⟨hh, _⟩)
              · exact hh
              · exact absurd hh.symm hu
        · rw [if_neg hadd]
          constructor
          · intro hh; exact Or.inl hh
          · rintro (hh | ⟨_, _, h1, h2, _⟩)
            · exact hh
            · exact absurd ⟨h1, h2⟩ hadd
    rw [step]
    constructor
    · rintro ((hh | ⟨hu, hc⟩) | ⟨hu, c', hc', rest⟩)
      · exact Or.inl hh
      · exact Or.inr ⟨hu, c, List.mem_cons_self c l, hc⟩
      · exact Or.inr ⟨hu, c', List.mem_cons_of_mem c hc', rest⟩
    · rintro (hh | ⟨hu, c', hc', rest⟩)
      · exact Or.inl (Or.inl hh)
      · rcases List.mem_cons.mp hc' with rfl | hmem
        · exact Or.inl (Or.inr ⟨hu, rest⟩)
        · exact Or.inr ⟨hu, c', hmem, rest⟩

theorem mem_lookupD_foldl_positions (cur : List Word) (bl : List Char) (ub : Bool)
    (word : Word) (l : List Nat) (g : Graph) (u v : Word) :
    (v ∈ lookupD (l.foldl (fun g i => addLetters cur bl ub word i g) g) u ↔
      v ∈ lookupD g u ∨ (u = word ∧ ∃ i ∈ l, ∃ c ∈ alphabet, ¬(ub = true ∧ c ∈ bl) ∧
        setChar word i c ∈ cur ∧ setChar word i c ≠ word ∧ v = setChar word i c)) := by
  induction l generalizing g with
  | nil => simp
  | cons i l ih =>
    simp only [List.foldl_cons]
    rw [ih]
    unfold addLetters
    rw [mem_lookupD_foldl_letters]
    constructor
    · rintro ((hh | ⟨hu, hc⟩) | ⟨hu, i', hi', rest⟩)
      · exact Or.inl hh
      · exact Or.inr ⟨hu, i, List.mem_cons_self i l, hc⟩
      · exact Or.inr ⟨hu, i', List.mem_cons_of_mem i hi', rest⟩
    · rintro (hh | ⟨hu, i', hi', rest⟩)
      · exact Or.inl (Or.inl hh)
      · rcases List.mem_cons.mp hi' with rfl | hmem
        · exact Or.inl (Or.inr ⟨hu, rest⟩)
        · exact Or.inr ⟨hu, i', hmem, rest⟩

theorem mem_lookupD_foldl_words (cur : List Word) (bl : List Char) (ub : Bool)
    (l : List Word) (g : Graph) (u v : Word) :
    (v ∈ lookupD (l.foldl (fun g w => addPositions cur bl ub w g) g) u ↔
      v ∈ lookupD g u ∨ (∃ w ∈ l, u = w ∧ ∃ i ∈ List.range w.length, ∃ c ∈ alphabet,
        ¬(ub = true ∧ c ∈ bl) ∧
        setChar w i c ∈ cur ∧ setChar w i c ≠ w ∧ v = setChar w i c)) := by
  induction l generalizing g with
  | nil => simp
  | cons w l ih =>
    simp only [List.foldl_cons]
    rw [ih]
    unfold addPositions
    rw [mem_lookupD_foldl_positions]
    constructor
    · rintro ((hh | ⟨hu, hc⟩) | ⟨w', hw', rest⟩)
      · exact Or.inl hh
      · exact Or.inr ⟨w, List.mem_cons_self w l, hu, hc⟩
      · exact Or.inr ⟨w', List.mem_cons_of_mem w hw', rest⟩
    · rintro (hh | ⟨w', hw', rest⟩)
      · exact Or.inl (Or.inl hh)
      · rcases List.mem_cons.mp hw' with rfl | hmem
        · exact Or.inl (Or.inr ⟨rest.1, rest.2⟩)
        · exact Or.inr ⟨w', hmem, rest⟩

/-- Membership characterization of the built graph: `v` is recorded as a
neighbour of `u` exactly when the triple loop generated it. -/
theorem build_mem_iff (dict : List Word) (policy : Option (List Word × List Char))
    (u v : Word) :
    (v ∈ lookupD (build_word_graph dict policy) u ↔
      u ∈ effectiveDict dict policy ∧ ∃ i, i < u.length ∧ ∃ c ∈ alphabet,
        ¬(policy.isSome = true ∧ c ∈ policyLetters policy) ∧
        setChar u i c ∈ effectiveDict dict policy ∧ setChar u i c ≠ u ∧
        v = setChar u i c) := by
  unfold build_word_graph
  rw [mem_lookupD_foldl_words]
  simp only [lookupD, List.not_mem_nil, false_or]
  constructor
  · rintro ⟨w, hw, rfl, i, hi, rest⟩
    exact ⟨hw, i, by simpa using List.mem_range.mp hi, rest⟩
  · rintro ⟨hu, i, hi, rest⟩
    exact ⟨u, hu, rfl, i, List.mem_range.mpr hi, rest⟩

theorem mem_effectiveDict (dict bw : List Word) (bl : List Char) (v : Word) :
    (v ∈ effectiveDict dict (some (bw, bl)) ↔ v ∈ dict ∧ ¬ v ∈ bw) := by
  simp [effectiveDict, List.mem_filter]

end WordLadder

namespace WordLadder

theorem heuristic_self (w : Word) : heuristic w w = 0 := by
  induction w with
  | nil => rfl
  | cons a w ih => simpa [heuristic, List.countP_cons] using ih

theorem heuristic_setChar {w : Word} {i : Nat} {c : Char}
    (h : i < w.length) (hne : w.get? i ≠ some c) :
    heuristic w (setChar w i c) = 1 := by
  induction w generalizing i with
  | nil => simp at h
  | cons a w ih =>
    cases i with
    | zero =>
      have hac : ¬ a = c := fun hh => hne (by simp [hh])
      have h0 : heuristic w w = 0 := heuristic_self w
      unfold heuristic at h0 ⊢
      rw [setChar_cons_zero, List.zip_cons_cons, List.countP_cons, h0]
      simp [hac]
    | succ j =>
      have ihj := ih (by simpa using h) (by simpa using hne)
      unfold heuristic at ihj ⊢
      rw [setChar_cons_succ, List.zip_cons_cons, List.countP_cons, ihj]
      simp

theorem mem_dict_of_mem_effectiveDict {dict : List Word}
    {policy : Option (List Word × List Char)} {w : Word}
    (h : w ∈ effectiveDict dict policy) : w ∈ dict := by
  cases policy with
  | none => exact h
  | some bl => exact (List.mem_filter.mp h).1

/-- Every adjacency recorded by `build_word_graph` joins two words of equal
length differing in exactly one character position. -/
theorem build_oneDiff {dict : List Word} {policy : Option (List Word × List Char)}
    {u v : Word} (h : v ∈ lookupD (build_word_graph dict policy) u) : oneDiff u v := by
  rw [build_mem_iff] at h
  obtain ⟨_, i, hi, c, _, _, _, hvne, rfl⟩ := h
  have hget : u.get? i ≠ some c := fun heq => hvne (setChar_eq_self hi heq)
  exact ⟨(setChar_length c hi).symm, heuristic_setChar hi hget⟩

/-- Claim C1: an adjacency entry `u → v` exists in the built graph iff `u` and
`v` are both in the effective dictionary (dictionary minus banned words), are
distinct, have equal length and differ in exactly one character position, and
the character of `v` at the differing position is not a banned letter.  The
dictionary is assumed to consist of lowercase alphabet words, as the spec's
data model requires. -/
theorem claim1 (dict bw : List Word) (bl : List Char) (u v : Word)
    (hAl : ∀ w ∈ dict, ∀ ch ∈ w, ch ∈ alphabet) :
    (v ∈ lookupD (build_word_graph dict (some (bw, bl))) u ↔
      (u ∈ effectiveDict dict (some (bw, bl)) ∧
        v ∈ effectiveDict dict (some (bw, bl)) ∧
        v ≠ u ∧ u.length = v.length ∧
        ∃ i, i < u.length ∧ u.get? i ≠ v.get? i ∧
          (∀ j, j ≠ i → u.get? j = v.get? j) ∧
          (∀ ch, v.get? i = some ch → ¬ ch ∈ bl))) := by
  rw [build_mem_iff]
  constructor
  · rintro ⟨hu, i, hi, c, _, hskip, hvc, hvne, rfl⟩
    have hnb : ¬ c ∈ bl := by
      intro hc
      exact hskip ⟨rfl, by simpa [policyLetters] using hc⟩
    refine ⟨hu, hvc, hvne, (setChar_length c hi).symm, i, hi, ?_, ?_, ?_⟩
    · rw [get?_setChar_self c hi]
      exact fun heq => hvne (setChar_eq_self hi heq)
    · intro j hj
      exact ((get?_setChar_ne u i j c hj).resolve_right (by omega)).symm
    · intro ch hch
      rw [get?_setChar_self c hi] at hch
      cases hch
      exact hnb
  · rintro ⟨hu, hv, hne, hlen, i, hi, hdiff, hsame, hbl⟩
    have hiv : i < v.length := hlen ▸ hi
    obtain ⟨ch, hch⟩ : ∃ ch, v.get? i = some ch :=
      ⟨v.get ⟨i, hiv⟩, List.get?_eq_get hiv⟩
    have hveq : v = setChar u i ch := by
      apply List.ext_get?
      intro j
      by_cases hj : j = i
      · subst hj
        rw [hch, get?_setChar_self ch hi]
      · rw [← hsame j hj]
        exact ((get?_setChar_ne u i j ch hj).resolve_right (by omega)).symm
    refine ⟨hu, i, hi, ch, ?_, ?_, ?_, ?_, hveq⟩
    · exact hAl v (mem_dict_of_mem_effectiveDict hv) ch (List.get?_mem hch)
    · rintro ⟨-, hmem⟩
      exact hbl ch hch (by simpa [policyLetters] using hmem)
    · rw [← hveq]; exact hv
    · rw [← hveq]; exact hne

set_option maxRecDepth 10000 in
/-- Witness for C1: with letter `'o'` banned and dictionary
`{"hot","hat","cat"}`, the entry `"cat" → "hat"` is present, `"hat" → "hot"`
is absent, and the characterization holds at those words. -/
theorem claim1_witness :
    (wd "hat" ∈ lookupD
        (build_word_graph [wd "hot", wd "hat", wd "cat"] (some ([], ['o']))) (wd "cat")) ∧
    (¬ wd "hot" ∈ lookupD
        (build_word_graph [wd "hot", wd "hat", wd "cat"] (some ([], ['o']))) (wd "hat")) ∧
    (wd "hat" ∈ lookupD
        (build_word_graph [wd "hot", wd "hat", wd "cat"] (some ([], ['o']))) (wd "cat") ↔
      (wd "cat" ∈ effectiveDict [wd "hot", wd "hat", wd "cat"] (some ([], ['o'])) ∧
        wd "hat" ∈ effectiveDict [wd "hot", wd "hat", wd "cat"] (some ([], ['o'])) ∧
        wd "hat" ≠ wd "cat" ∧ (wd "cat").length = (wd "hat").length ∧
        ∃ i, i < (wd "cat").length ∧ (wd "cat").get? i ≠ (wd "hat").get? i ∧
          (∀ j, j ≠ i → (wd "cat").get? j = (wd "hat").get? j) ∧
          (∀ ch, (wd "hat").get? i = some ch → ¬ ch ∈ ['o']))) :=
  ⟨by decide, by decide,
    claim1 [wd "hot", wd "hat", wd "cat"] [] ['o'] (wd "cat") (wd "hat") (by decide)⟩

set_option maxRecDepth 10000 in
/-- Counterexample to C3 as stated: with banned letter `'o'` the built graph is
not symmetric: `"hot" → "hat"` is an entry (the substituted letter `'a'` is
allowed) but `"hat" → "hot"` is not (the substituted letter `'o'` is banned). -/
theorem claim3_counterexample :
    (wd "hat" ∈ lookupD
        (build_word_graph [wd "hot", wd "hat"] (some ([], ['o']))) (wd "hot")) ∧
    ¬ (wd "hot" ∈ lookupD
        (build_word_graph [wd "hot", wd "hat"] (some ([], ['o']))) (wd "hat")) := by
  decide

/-- Claim C3, amended: the built word graph is symmetric whenever the policy's
banned-letter set is empty (in particular outside Challenge mode); with a
non-empty banned-letter set symmetry can fail (see the counterexample). -/
theorem claim3 (dict : List Word) (policy : Option (List Word × List Char))
    (hbl : policyLetters policy = [])
    (hAl : ∀ w ∈ dict, ∀ ch ∈ w, ch ∈ alphabet) (u v : Word) :
    (v ∈ lookupD (build_word_graph dict policy) u ↔
      u ∈ lookupD (build_word_graph dict policy) v) := by
  suffices key : ∀ x y : Word, y ∈ lookupD (build_word_graph dict policy) x →
      x ∈ lookupD (build_word_graph dict policy) y from ⟨key u v, key v u⟩
  intro x y hxy
  rw [build_mem_iff] at hxy ⊢
  obtain ⟨hx, i, hi, c, _, _, hyin, hyne, rfl⟩ := hxy
  obtain ⟨d, hd⟩ : ∃ d, x.get? i = some d :=
    ⟨x.get ⟨i, hi⟩, List.get?_eq_get hi⟩
  have hlen : (setChar x i c).length = x.length := setChar_length c hi
  have hxeq : x = setChar (setChar x i c) i d := by
    apply List.ext_get?
    intro j
    by_cases hj : j = i
    · subst hj
      rw [hd, get?_setChar_self d (by omega)]
    · rw [(get?_setChar_ne (setChar x i c) i j d hj).resolve_right (by omega),
        (get?_setChar_ne x i j c hj).resolve_right (by omega)]
  refine ⟨hyin, i, by omega, d, ?_, ?_, ?_, ?_, hxeq⟩
  · exact hAl x (mem_dict_of_mem_effectiveDict hx) d (List.get?_mem hd)
  · rintro ⟨-, hmem⟩
    rw [hbl] at hmem
    simp at hmem
  · rw [← hxeq]; exact hx
  · rw [← hxeq]; exact fun hh => hyne hh.symm

/-- Witness for the amended C3 at a concrete graph without banned letters. -/
theorem claim3_witness :
    (wd "bat" ∈ lookupD (build_word_graph [wd "cat", wd "bat"] none) (wd "cat") ↔
      wd "cat" ∈ lookupD (build_word_graph [wd "cat", wd "bat"] none) (wd "bat")) :=
  claim3 [wd "cat", wd "bat"] none rfl (by decide) (wd "cat") (wd "bat")

end WordLadder

namespace WordLadder

/-- Claim C6: when `start == goal == w`, each of BFS, UCS and A* returns cost 0
with the one-element path `[w]`, and the graph state is untouched (the first
popped entry is the goal, so the loop returns before any graph access), even
when `w` is not a key of the graph. -/
theorem claim6 (g : Graph) (w : Word) :
    breadth_first_search g w w = (some (0, [w]), g) ∧
    uniform_cost_search g w w = (some (0, [w]), g) ∧
    a_star_search g w w = (some (0, [w]), g) := by
  obtain ⟨n, hn⟩ : ∃ n, fuelBound g w = n + 1 :=
    ⟨capSum (lookupD g) [] (cands g w) + 1, rfl⟩
  refine ⟨?_, ?_, ?_⟩
  · unfold breadth_first_search
    rw [hn]
    simp [bfsAux]
  · unfold uniform_cost_search
    rw [hn]
    simp [ucsAux, popMin]
  · unfold a_star_search
    rw [hn]
    simp [astarAux, popMin]

/-- Claim C7: `check_path_exists` with `start == target` returns `True`
immediately (graph untouched), including when the word is absent from the
graph. -/
theorem claim7 (g : Graph) (w : Word) : check_path_exists g w w = (true, g) := by
  unfold check_path_exists
  rw [if_pos rfl]

end WordLadder

namespace WordLadder

/-! ### Purification: the loops only read the graph through `lookupD`

A `defaultdict` access returns the same adjacency list as `lookupD` and never
changes the value of any lookup, so each threaded loop computes the same
search result as its pure counterpart over the fixed function `lookupD g`. -/

theorem bfsAux_pure (adj : Word → List Word) (goal : Word) :
    ∀ (f : Nat) (q : List (Word × WPath)) (ex : List Word) (g : Graph),
      (∀ x, lookupD g x = adj x) →
      (bfsAux goal f q ex g).map Prod.fst = bfsP adj goal f q ex := by
  intro f
  induction f with
  | zero => intro q ex g _; rfl
  | succ f ih =>
    intro q ex g h
    cases q with
    | nil => rfl
    | cons e rest =>
      obtain ⟨u, p⟩ := e
      by_cases hg : u = goal
      · simp [bfsAux, bfsP, hg]
      · simp only [bfsAux, bfsP, if_neg hg]
        rw [accessD_fst, h u]
        exact ih _ _ _ (fun x => (lookupD_accessD g u x).trans (h x))

theorem ucsAux_pure (adj : Word → List Word) (goal : Word) :
    ∀ (f : Nat) (fr : List (Nat × Word × WPath)) (ex : List Word) (g : Graph),
      (∀ x, lookupD g x = adj x) →
      (ucsAux goal f fr ex g).map Prod.fst = ucsP adj goal f fr ex := by
  intro f
  induction f with
  | zero => intro fr ex g _; rfl
  | succ f ih =>
    intro fr ex g h
    cases hpop : popMin ucsLtB fr with
    | none => simp [ucsAux, ucsP, hpop]
    | some pr =>
      obtain ⟨⟨c, u, p⟩, rest⟩ := pr
      simp only [ucsAux, ucsP, hpop]
      by_cases hg : u = goal
      · simp [hg]
      · rw [if_neg hg, if_neg hg]
        by_cases hex : u ∈ ex
        · rw [if_pos hex, if_pos hex]
          exact ih _ _ _ h
        · rw [if_neg hex, if_neg hex]
          rw [accessD_fst, h u]
          exact ih _ _ _ (fun x => (lookupD_accessD g u x).trans (h x))

theorem astarAux_pure (adj : Word → List Word) (h0 : Word → Nat) (goal : Word) :
    ∀ (f : Nat) (fr : List (Nat × Nat × Word × WPath)) (ex : List Word) (g : Graph),
      (∀ x, lookupD g x = adj x) →
      (astarAux h0 goal f fr ex g).map Prod.fst = astarP adj h0 goal f fr ex := by
  intro f
  induction f with
  | zero => intro fr ex g _; rfl
  | succ f ih =>
    intro fr ex g h
    cases hpop : popMin astarLtB fr with
    | none => simp [astarAux, astarP, hpop]
    | some pr =>
      obtain ⟨⟨pri, c, u, p⟩, rest⟩ := pr
      simp only [astarAux, astarP, hpop]
      by_cases hg : u = goal
      · simp [hg]
      · rw [if_neg hg, if_neg hg]
        by_cases hex : u ∈ ex
        · rw [if_pos hex, if_pos hex]
          exact ih _ _ _ h
        · rw [if_neg hex, if_neg hex]
          rw [accessD_fst, h u]
          exact ih _ _ _ (fun x => (lookupD_accessD g u x).trans (h x))

theorem cpeAux_pure (adj : Word → List Word) (target : Word) :
    ∀ (f : Nat) (q : List Word) (vis : List Word) (g : Graph),
      (∀ x, lookupD g x = adj x) →
      (cpeAux target f q vis g).map Prod.fst = cpeP adj target f q vis := by
  intro f
  induction f with
  | zero => intro q vis g _; rfl
  | succ f ih =>
    intro q vis g h
    cases q with
    | nil => rfl
    | cons w rest =>
      simp only [cpeAux, cpeP]
      rw [accessD_fst, h w]
      cases hscan : cpeScan target (adj w) vis rest with
      | none => rfl
      | some vq => exact ih _ _ _ (fun x => (lookupD_accessD g w x).trans (h x))

/-! ### Graph evolution across a search (for the frame-effect claim) -/

theorem mem_keysOf_accessD {g : Graph} {w k : Word} (h : k ∈ keysOf g) :
    k ∈ keysOf (accessD g w).2 := by
  rcases keysOf_accessD g w with h2 | h2 <;> rw [h2]
  · exact h
  · exact List.mem_append_left _ h

theorem bfsAux_graph (goal : Word) :
    ∀ (f : Nat) (q : List (Word × WPath)) (ex : List Word) (g : Graph)
      (r : Option (Nat × WPath)) (g2 : Graph),
      bfsAux goal f q ex g = some (r, g2) →
      (∀ x, lookupD g2 x = lookupD g x) ∧ (∀ k, k ∈ keysOf g → k ∈ keysOf g2) := by
  intro f
  induction f with
  | zero => intro q ex g r g2 h; exact absurd h (by simp [bfsAux])
  | succ f ih =>
    intro q ex g r g2 h
    cases q with
    | nil =>
      simp only [bfsAux, Option.some.injEq, Prod.mk.injEq] at h
      rw [← h.2]
      exact ⟨fun _ => rfl, fun _ hk => hk⟩
    | cons e rest =>
      obtain ⟨u, p⟩ := e
      by_cases hg : u = goal
      · simp only [bfsAux, if_pos hg, Option.some.injEq, Prod.mk.injEq] at h
        rw [← h.2]
        exact ⟨fun _ => rfl, fun _ hk => hk⟩
      · simp only [bfsAux, if_neg hg] at h
        obtain ⟨h1, h2⟩ := ih _ _ _ _ _ h
        exact ⟨fun x => (h1 x).trans (lookupD_accessD g u x),
          fun k hk => h2 k (mem_keysOf_accessD hk)⟩

theorem ucsAux_graph (goal : Word) :
    ∀ (f : Nat) (fr : List (Nat × Word × WPath)) (ex : List Word) (g : Graph)
      (r : Option (Nat × WPath)) (g2 : Graph),
      ucsAux goal f fr ex g = some (r, g2) →
      (∀ x, lookupD g2 x = lookupD g x) ∧ (∀ k, k ∈ keysOf g → k ∈ keysOf g2) := by
  intro f
  induction f with
  | zero => intro fr ex g r g2 h; exact absurd h (by simp [ucsAux])
  | succ f ih =>
    intro fr ex g r g2 h
    cases hpop : popMin ucsLtB fr with
    | none =>
      simp only [ucsAux, hpop, Option.some.injEq, Prod.mk.injEq] at h
      rw [← h.2]
      exact ⟨fun _ => rfl, fun _ hk => hk⟩
    | some pr =>
      obtain ⟨⟨c, u, p⟩, rest⟩ := pr
      simp only [ucsAux, hpop] at h
      by_cases hg : u = goal
      · rw [if_pos hg] at h
        simp only [Option.some.injEq, Prod.mk.injEq] at h
        rw [← h.2]
        exact ⟨fun _ => rfl, fun _ hk => hk⟩
      · rw [if_neg hg] at h
        by_cases hex : u ∈ ex
        · rw [if_pos hex] at h
          exact ih _ _ _ _ _ h
        · rw [if_neg hex] at h
          obtain ⟨h1, h2⟩ := ih _ _ _ _ _ h
          exact ⟨fun x => (h1 x).trans (lookupD_accessD g u x),
            fun k hk => h2 k (mem_keysOf_accessD hk)⟩

theorem astarAux_graph (h0 : Word → Nat) (goal : Word) :
    ∀ (f : Nat) (fr : List (Nat × Nat × Word × WPath)) (ex : List Word) (g : Graph)
      (r : Option (Nat × WPath)) (g2 : Graph),
      astarAux h0 goal f fr ex g = some (r, g2) →
      (∀ x, lookupD g2 x = lookupD g x) ∧ (∀ k, k ∈ keysOf g → k ∈ keysOf g2) := by
  intro f
  induction f with
  | zero => intro fr ex g r g2 h; exact absurd h (by simp [astarAux])
  | succ f ih =>
    intro fr ex g r g2 h
    cases hpop : popMin astarLtB fr with
    | none =>
      simp only [astarAux, hpop, Option.some.injEq, Prod.mk.injEq] at h
      rw [← h.2]
      exact ⟨fun _ => rfl, fun _ hk => hk⟩
    | some pr =>
      obtain ⟨⟨pri, c, u, p⟩, rest⟩ := pr
      simp only [astarAux, hpop] at h
      by_cases hg : u = goal
      · rw [if_pos hg] at h
        simp only [Option.some.injEq, Prod.mk.injEq] at h
        rw [← h.2]
        exact ⟨fun _ => rfl, fun _ hk => hk⟩
      · rw [if_neg hg] at h
        by_cases hex : u ∈ ex
        · rw [if_pos hex] at h
          exact ih _ _ _ _ _ h
        · rw [if_neg hex] at h
          obtain ⟨h1, h2⟩ := ih _ _ _ _ _ h
          exact ⟨fun x => (h1 x).trans (lookupD_accessD g u x),
            fun k hk => h2 k (mem_keysOf_accessD hk)⟩

theorem cpeAux_graph (target : Word) :
    ∀ (f : Nat) (q : List Word) (vis : List Word) (g : Graph)
      (r : Bool) (g2 : Graph),
      cpeAux target f q vis g = some (r, g2) →
      (∀ x, lookupD g2 x = lookupD g x) ∧ (∀ k, k ∈ keysOf g → k ∈ keysOf g2) := by
  intro f
  induction f with
  | zero => intro q vis g r g2 h; exact absurd h (by simp [cpeAux])
  | succ f ih =>
    intro q vis g r g2 h
    cases q with
    | nil =>
      simp only [cpeAux, Option.some.injEq, Prod.mk.injEq] at h
      rw [← h.2]
      exact ⟨fun _ => rfl, fun _ hk => hk⟩
    | cons w rest =>
      simp only [cpeAux] at h
      cases hscan : cpeScan target (accessD g w).1 vis rest with
      | none =>
        rw [hscan] at h
        simp only [Option.some.injEq, Prod.mk.injEq] at h
        rw [← h.2]
        exact ⟨fun x => lookupD_accessD g w x, fun k hk => mem_keysOf_accessD hk⟩
      | some vq =>
        rw [hscan] at h
        obtain ⟨h1, h2⟩ := ih _ _ _ _ _ h
        exact ⟨fun x => (h1 x).trans (lookupD_accessD g w x),
          fun k hk => h2 k (mem_keysOf_accessD hk)⟩

/-- Counterexample to C4 as stated: running BFS on the empty graph with absent
start word `"cat"` inserts `"cat"` as a new key (the `defaultdict` lookup
`self.word_graph[current]` mutates), so the key set is not identical before and
after the search. -/
theorem claim4_counterexample :
    wd "cat" ∈ keysOf (breadth_first_search ([] : Graph) (wd "cat") (wd "dog")).2 ∧
    ¬ wd "cat" ∈ keysOf ([] : Graph) := by
  decide

/-- Claim C4, amended: the searches never change the adjacency mapping as a
function — every lookup returns the same list before and after, and every
existing key survives — but the `defaultdict` may append missing looked-up
words as new keys, whose adjacency lists are empty.  (As stated, the claim is
false: the key set can grow; see the counterexample.) -/
theorem claim4 (g : Graph) (s t : Word) :
    ((∀ x, lookupD (breadth_first_search g s t).2 x = lookupD g x) ∧
      (∀ k, k ∈ keysOf g → k ∈ keysOf (breadth_first_search g s t).2) ∧
      (∀ k, k ∈ keysOf (breadth_first_search g s t).2 →
        k ∈ keysOf g ∨ lookupD (breadth_first_search g s t).2 k = [])) ∧
    ((∀ x, lookupD (uniform_cost_search g s t).2 x = lookupD g x) ∧
      (∀ k, k ∈ keysOf g → k ∈ keysOf (uniform_cost_search g s t).2) ∧
      (∀ k, k ∈ keysOf (uniform_cost_search g s t).2 →
        k ∈ keysOf g ∨ lookupD (uniform_cost_search g s t).2 k = [])) ∧
    ((∀ x, lookupD (a_star_search g s t).2 x = lookupD g x) ∧
      (∀ k, k ∈ keysOf g → k ∈ keysOf (a_star_search g s t).2) ∧
      (∀ k, k ∈ keysOf (a_star_search g s t).2 →
        k ∈ keysOf g ∨ lookupD (a_star_search g s t).2 k = [])) ∧
    ((∀ x, lookupD (check_path_exists g s t).2 x = lookupD g x) ∧
      (∀ k, k ∈ keysOf g → k ∈ keysOf (check_path_exists g s t).2) ∧
      (∀ k, k ∈ keysOf (check_path_exists g s t).2 →
        k ∈ keysOf g ∨ lookupD (check_path_exists g s t).2 k = [])) := by
  have third : ∀ g2 : Graph, (∀ x, lookupD g2 x = lookupD g x) →
      ∀ k, k ∈ keysOf g2 → k ∈ keysOf g ∨ lookupD g2 k = [] := by
    intro g2 h1 k _
    by_cases hk : k ∈ keysOf g
    · exact Or.inl hk
    · exact Or.inr ((h1 k).trans (lookupD_eq_nil_of_not_mem_keys g k hk))
  refine ⟨?_, ?_, ?_, ?_⟩
  · unfold breadth_first_search
    cases hb : bfsAux t (fuelBound g s) [(s, [s])] [s] g with
    | none => exact ⟨fun _ => rfl, fun _ hk => hk, fun k hk => Or.inl hk⟩
    | some r =>
      obtain ⟨res, g2⟩ := r
      obtain ⟨h1, h2⟩ := bfsAux_graph t _ _ _ _ _ _ hb
      exact ⟨h1, h2, third g2 h1⟩
  · unfold uniform_cost_search
    cases hb : ucsAux t (fuelBound g s) [(0, s, [s])] [] g with
    | none => exact ⟨fun _ => rfl, fun _ hk => hk, fun k hk => Or.inl hk⟩
    | some r =>
      obtain ⟨res, g2⟩ := r
      obtain ⟨h1, h2⟩ := ucsAux_graph t _ _ _ _ _ _ hb
      exact ⟨h1, h2, third g2 h1⟩
  · unfold a_star_search
    cases hb : astarAux (fun w => heuristic w t) t (fuelBound g s)
        [(heuristic s t, 0, s, [s])] [] g with
    | none => exact ⟨fun _ => rfl, fun _ hk => hk, fun k hk => Or.inl hk⟩
    | some r =>
      obtain ⟨res, g2⟩ := r
      obtain ⟨h1, h2⟩ := astarAux_graph _ t _ _ _ _ _ _ hb
      exact ⟨h1, h2, third g2 h1⟩
  · unfold check_path_exists
    by_cases hst : s = t
    · rw [if_pos hst]
      exact ⟨fun _ => rfl, fun _ hk => hk, fun k hk => Or.inl hk⟩
    · rw [if_neg hst]
      cases hb : cpeAux t (fuelBound g s) [s] [s] g with
      | none => exact ⟨fun _ => rfl, fun _ hk => hk, fun k hk => Or.inl hk⟩
      | some r =>
        obtain ⟨res, g2⟩ := r
        obtain ⟨h1, h2⟩ := cpeAux_graph t _ _ _ _ _ _ hb
        exact ⟨h1, h2, third g2 h1⟩

end WordLadder

namespace WordLadder

/-! ### Lemmas about `popMin` -/

theorem popMin_eq_none {lt : α → α → Bool} {l : List α} :
    popMin lt l = none ↔ l = [] := by
  cases l with
  | nil => simp [popMin]
  | cons x xs =>
    cases xs with
    | nil => simp [popMin]
    | cons y ys =>
      simp only [popMin]
      cases hp : popMin lt (y :: ys) with
      | none => simp
      | some pr =>
        obtain ⟨m, rest⟩ := pr
        by_cases hlt : lt m x <;> simp [hlt]

theorem popMin_mem {lt : α → α → Bool} :
    ∀ {l : List α} {m : α} {rest : List α}, popMin lt l = some (m, rest) → m ∈ l := by
  intro l
  induction l with
  | nil => intro m rest h; simp [popMin] at h
  | cons x xs ih =>
    intro m rest h
    cases xs with
    | nil =>
      simp only [popMin, Option.some.injEq, Prod.mk.injEq] at h
      simp [h.1.symm]
    | cons y ys =>
      simp only [popMin] at h
      cases hp : popMin lt (y :: ys) with
      | none => rw [hp] at h; simp at h; simp [h.1.symm]
      | some pr =>
        obtain ⟨m', rest'⟩ := pr
        simp only [hp] at h
        by_cases hlt : lt m' x
        · rw [if_pos hlt] at h
          simp only [Option.some.injEq, Prod.mk.injEq] at h
          exact List.mem_cons_of_mem x (h.1 ▸ ih hp)
        · rw [if_neg hlt] at h
          simp only [Option.some.injEq, Prod.mk.injEq] at h
          simp [h.1.symm]

theorem popMin_mem_or {lt : α → α → Bool} :
    ∀ {l : List α} {m : α} {rest : List α}, popMin lt l = some (m, rest) →
      ∀ z ∈ l, z = m ∨ z ∈ rest := by
  intro l
  induction l with
  | nil => intro m rest h; simp [popMin] at h
  | cons x xs ih =>
    intro m rest h z hz
    cases xs with
    | nil =>
      simp only [popMin, Option.some.injEq, Prod.mk.injEq] at h
      simp only [List.mem_singleton] at hz
      exact Or.inl (hz.trans h.1)
    | cons y ys =>
      simp only [popMin] at h
      cases hp : popMin lt (y :: ys) with
      | none => exact absurd hp (by simp [popMin_eq_none])
      | some pr =>
        obtain ⟨m', rest'⟩ := pr
        simp only [hp] at h
        by_cases hlt : lt m' x
        · rw [if_pos hlt] at h
          simp only [Option.some.injEq, Prod.mk.injEq] at h
          obtain ⟨hm, hrest⟩ := h
          rcases List.mem_cons.mp hz with rfl | hz2
          · right; rw [← hrest]; exact List.mem_cons_self _ _
          · rcases ih hp z hz2 with h3 | h3
            · exact Or.inl (h3.trans hm)
            · right; rw [← hrest]; exact List.mem_cons_of_mem _ h3
        · rw [if_neg hlt] at h
          simp only [Option.some.injEq, Prod.mk.injEq] at h
          rcases List.mem_cons.mp hz with rfl | hz2
          · exact Or.inl h.1
          · right; rw [← h.2]; exact hz2

theorem popMin_rest_mem {lt : α → α → Bool} {l : List α} {m : α} {rest : List α}
    (h : popMin lt l = some (m, rest)) : ∀ z ∈ rest, z ∈ l := by
  induction l generalizing m rest with
  | nil => simp [popMin] at h
  | cons x xs ih =>
    cases xs with
    | nil =>
      simp only [popMin, Option.some.injEq, Prod.mk.injEq] at h
      intro z hz
      rw [← h.2] at hz
      simp at hz
    | cons y ys =>
      simp only [popMin] at h
      cases hp : popMin lt (y :: ys) with
      | none => exact absurd hp (by simp [popMin_eq_none])
      | some pr =>
        obtain ⟨m', rest'⟩ := pr
        simp only [hp] at h
        by_cases hlt : lt m' x
        · rw [if_pos hlt] at h
          simp only [Option.some.injEq, Prod.mk.injEq] at h
          intro z hz
          rw [← h.2] at hz
          rcases List.mem_cons.mp hz with rfl | hz2
          · exact List.mem_cons_self _ _
          · exact List.mem_cons_of_mem _ (ih hp z hz2)
        · rw [if_neg hlt] at h
          simp only [Option.some.injEq, Prod.mk.injEq] at h
          intro z hz
          rw [← h.2] at hz
          exact List.mem_cons_of_mem _ hz

theorem popMin_length {lt : α → α → Bool} {l : List α} {m : α} {rest : List α}
    (h : popMin lt l = some (m, rest)) : l.length = rest.length + 1 := by
  induction l generalizing m rest with
  | nil => simp [popMin] at h
  | cons x xs ih =>
    cases xs with
    | nil =>
      simp only [popMin, Option.some.injEq, Prod.mk.injEq] at h
      rw [← h.2]
      rfl
    | cons y ys =>
      simp only [popMin] at h
      cases hp : popMin lt (y :: ys) with
      | none => exact absurd hp (by simp [popMin_eq_none])
      | some pr =>
        obtain ⟨m', rest'⟩ := pr
        simp only [hp] at h
        by_cases hlt : lt m' x
        · rw [if_pos hlt] at h
          simp only [Option.some.injEq, Prod.mk.injEq] at h
          rw [← h.2]
          simpa using ih hp
        · rw [if_neg hlt] at h
          simp only [Option.some.injEq, Prod.mk.injEq] at h
          rw [← h.2]
          rfl

theorem popMin_min {lt : α → α → Bool} {f : α → Nat}
    (h1 : ∀ a b, lt a b = true → f a ≤ f b)
    (h2 : ∀ a b, lt a b = false → f b ≤ f a) :
    ∀ {l : List α} {m : α} {rest : List α}, popMin lt l = some (m, rest) →
      ∀ z ∈ l, f m ≤ f z := by
  intro l
  induction l with
  | nil => intro m rest h; simp [popMin] at h
  | cons x xs ih =>
    intro m rest h z hz
    cases xs with
    | nil =>
      simp only [popMin, Option.some.injEq, Prod.mk.injEq] at h
      simp only [List.mem_singleton] at hz
      rw [← h.1, hz]
    | cons y ys =>
      simp only [popMin] at h
      cases hp : popMin lt (y :: ys) with
      | none => exact absurd hp (by simp [popMin_eq_none])
      | some pr =>
        obtain ⟨m', rest'⟩ := pr
        simp only [hp] at h
        by_cases hlt : lt m' x
        · rw [if_pos hlt] at h
          simp only [Option.some.injEq, Prod.mk.injEq] at h
          rw [← h.1]
          rcases List.mem_cons.mp hz with rfl | hz2
          · exact h1 _ _ hlt
          · exact ih hp z hz2
        · rw [if_neg hlt] at h
          simp only [Option.some.injEq, Prod.mk.injEq] at h
          rw [← h.1]
          rcases List.mem_cons.mp hz with rfl | hz2
          · exact Nat.le_refl _
          · exact Nat.le_trans (h2 _ _ (by simpa using hlt)) (ih hp z hz2)

theorem ucsLtB_fst_le {a b : Nat × Word × WPath} (h : ucsLtB a b = true) : a.1 ≤ b.1 := by
  simp only [ucsLtB, Bool.or_eq_true, decide_eq_true_eq, Bool.and_eq_true] at h
  rcases h with h | ⟨h, -⟩
  · omega
  · omega

theorem ucsLtB_fst_ge {a b : Nat × Word × WPath} (h : ucsLtB a b = false) : b.1 ≤ a.1 := by
  simp only [ucsLtB, Bool.or_eq_false_iff, decide_eq_false_iff_not] at h
  omega

theorem astarLtB_fst_le {a b : Nat × Nat × Word × WPath} (h : astarLtB a b = true) :
    a.1 ≤ b.1 := by
  simp only [astarLtB, Bool.or_eq_true, decide_eq_true_eq, Bool.and_eq_true] at h
  rcases h with h | ⟨h, -⟩
  · omega
  · omega

theorem astarLtB_fst_ge {a b : Nat × Nat × Word × WPath} (h : astarLtB a b = false) :
    b.1 ≤ a.1 := by
  simp only [astarLtB, Bool.or_eq_false_iff, decide_eq_false_iff_not] at h
  omega

end WordLadder

namespace WordLadder

/-! ### Capacity bookkeeping for termination -/

theorem capSum_congr (adj : Word → List Word) {ex ex' : List Word} (cs : List Word)
    (h : ∀ x, x ∈ ex ↔ x ∈ ex') : capSum adj ex cs = capSum adj ex' cs := by
  induction cs with
  | nil => rfl
  | cons c cs ih =>
    simp only [capSum, List.filter_cons] at ih ⊢
    by_cases hc : c ∈ ex
    · rw [if_neg (by simp [hc]), if_neg (by simp [(h c).mp hc])]
      exact ih
    · have hc' : ¬ c ∈ ex' := fun hh => hc ((h c).mpr hh)
      rw [if_pos (by simp [hc]), if_pos (by simp [hc'])]
      simp only [List.map_cons, List.sum_cons]
      rw [ih]

theorem capSum_mono (adj : Word → List Word) {ex ex' : List Word} (cs : List Word)
    (h : ∀ w, w ∈ ex → w ∈ ex') : capSum adj ex' cs ≤ capSum adj ex cs := by
  induction cs with
  | nil => exact Nat.le_refl _
  | cons c cs ih =>
    simp only [capSum, List.filter_cons] at ih ⊢
    by_cases hc' : c ∈ ex'
    · rw [if_neg (by simp [hc'])]
      by_cases hc : c ∈ ex
      · rw [if_neg (by simp [hc])]
        exact ih
      · rw [if_pos (by simp [hc])]
        simp only [List.map_cons, List.sum_cons]
        omega
    · have hc : ¬ c ∈ ex := fun hh => hc' (h c hh)
      rw [if_pos (by simp [hc']), if_pos (by simp [hc])]
      simp only [List.map_cons, List.sum_cons]
      omega

theorem capSum_remove (adj : Word → List Word) {ex cs : List Word} {w : Word}
    (hw : w ∈ cs) (hnw : ¬ w ∈ ex) :
    capSum adj (w :: ex) cs + (1 + (adj w).length) ≤ capSum adj ex cs := by
  induction cs with
  | nil => simp at hw
  | cons c cs ih =>
    simp only [capSum, List.filter_cons] at ih ⊢
    by_cases hcw : c = w
    · rw [if_neg (by simp [hcw]), if_pos (by simp [hcw, hnw])]
      simp only [List.map_cons, List.sum_cons, hcw]
      have hmono : capSum adj (w :: ex) cs ≤ capSum adj ex cs :=
        capSum_mono adj cs (fun x hx => List.mem_cons_of_mem w hx)
      simp only [capSum] at hmono
      omega
    · have hw2 : w ∈ cs := by
        rcases List.mem_cons.mp hw with rfl | hh
        · exact absurd rfl hcw
        · exact hh
      by_cases hc : c ∈ ex
      · rw [if_neg (by simp [List.mem_cons, hc]), if_neg (by simp [hc])]
        exact ih hw2
      · have hcwex : ¬ c ∈ w :: ex := by
          simp only [List.mem_cons, not_or]
          exact ⟨hcw, hc⟩
        rw [if_pos (by simp [hcwex]), if_pos (by simp [hc])]
        simp only [List.map_cons, List.sum_cons]
        have := ih hw2
        omega

theorem capSum_removeBatch (adj : Word → List Word) :
    ∀ (ws : List Word) (ex cs : List Word), ws.Nodup →
      (∀ w ∈ ws, w ∈ cs ∧ ¬ w ∈ ex) →
      capSum adj (ex ++ ws) cs + ws.length ≤ capSum adj ex cs := by
  intro ws
  induction ws with
  | nil =>
    intro ex cs _ _
    simp
  | cons w ws ih =>
    intro ex cs hnd hws
    have hcons : ex ++ w :: ws = (ex ++ [w]) ++ ws := by
      simp
    rw [hcons]
    have hstep := ih (ex ++ [w]) cs (by simpa using hnd.of_cons) ?_
    · have hrem := capSum_remove adj (hws w (List.mem_cons_self w ws)).1
        (hws w (List.mem_cons_self w ws)).2
      have hcng : capSum adj (ex ++ [w]) cs = capSum adj (w :: ex) cs :=
        capSum_congr adj cs (by intro x; simp [Or.comm])
      rw [hcng] at hstep
      simp only [List.length_cons]
      omega
    · intro w2 hw2
      have h2 := hws w2 (List.mem_cons_of_mem w hw2)
      have hne : w2 ≠ w := by
        intro hh
        subst hh
        exact (List.nodup_cons.mp hnd).1 hw2
      simp only [List.mem_append, List.mem_singleton, not_or]
      exact ⟨h2.1, h2.2, hne⟩

/-! ### Specification of the inner enqueue loops -/

theorem enqueueAll_spec (p : WPath) :
    ∀ (ns : List Word) (q : List (Word × WPath)) (ex : List Word),
      ∃ ws : List Word,
        enqueueAll p ns q ex = (q ++ ws.map (fun w => (w, p ++ [w])), ex ++ ws) ∧
        ws.Nodup ∧ (∀ w ∈ ws, w ∈ ns ∧ ¬ w ∈ ex) ∧ (∀ w ∈ ns, w ∈ ex ++ ws) := by
  intro ns
  induction ns with
  | nil =>
    intro q ex
    exact ⟨[], by simp [enqueueAll], List.nodup_nil, by simp, by simp⟩
  | cons n ns ih =>
    intro q ex
    by_cases hn : n ∈ ex
    · obtain ⟨ws, heq, hnd, hmem, hall⟩ := ih q ex
      refine ⟨ws, ?_, hnd, ?_, ?_⟩
      · rw [enqueueAll, if_pos hn]
        exact heq
      · intro w hw
        exact ⟨List.mem_cons_of_mem n (hmem w hw).1, (hmem w hw).2⟩
      · intro w hw
        rcases List.mem_cons.mp hw with rfl | hw2
        · exact List.mem_append_left _ hn
        · exact hall w hw2
    · obtain ⟨ws, heq, hnd, hmem, hall⟩ := ih (q ++ [(n, p ++ [n])]) (ex ++ [n])
      refine ⟨n :: ws, ?_, ?_, ?_, ?_⟩
      · rw [enqueueAll, if_neg hn, heq]
        simp
      · rw [List.nodup_cons]
        refine ⟨fun hh => ?_, hnd⟩
        have := (hmem n hh).2
        simp at this
      · intro w hw
        rcases List.mem_cons.mp hw with rfl | hw2
        · exact ⟨List.mem_cons_self _ _, hn⟩
        · refine ⟨List.mem_cons_of_mem n (hmem w hw2).1, fun hh => (hmem w hw2).2 ?_⟩
          exact List.mem_append_left _ hh
      · intro w hw
        rcases List.mem_cons.mp hw with rfl | hw2
        · simp
        · have := hall w hw2
          simp only [List.mem_append, List.mem_singleton, List.mem_cons] at this ⊢
          tauto

theorem cpeScan_none_iff (target : Word) :
    ∀ (ns vis q : List Word), cpeScan target ns vis q = none ↔ target ∈ ns := by
  intro ns
  induction ns with
  | nil => intro vis q; simp [cpeScan]
  | cons n ns ih =>
    intro vis q
    by_cases hnt : n = target
    · simp [cpeScan, hnt]
    · rw [cpeScan, if_neg hnt]
      by_cases hv : n ∈ vis
      · rw [if_pos hv, ih, List.mem_cons]
        constructor
        · exact fun hh => Or.inr hh
        · rintro (hh | hh)
          · exact absurd hh.symm hnt
          · exact hh
      · rw [if_neg hv, ih, List.mem_cons]
        constructor
        · exact fun hh => Or.inr hh
        · rintro (hh | hh)
          · exact absurd hh.symm hnt
          · exact hh

theorem cpeScan_some_spec (target : Word) :
    ∀ (ns vis q vis' q' : List Word), cpeScan target ns vis q = some (vis', q') →
      ∃ ws : List Word, vis' = vis ++ ws ∧ q' = q ++ ws ∧ ws.Nodup ∧
        (∀ w ∈ ws, w ∈ ns ∧ ¬ w ∈ vis) := by
  intro ns
  induction ns with
  | nil =>
    intro vis q vis' q' h
    simp only [cpeScan, Option.some.injEq, Prod.mk.injEq] at h
    exact ⟨[], by simp [← h.1], by simp [← h.2], List.nodup_nil, by simp⟩
  | cons n ns ih =>
    intro vis q vis' q' h
    rw [cpeScan] at h
    by_cases hnt : n = target
    · rw [if_pos hnt] at h
      simp at h
    · rw [if_neg hnt] at h
      by_cases hv : n ∈ vis
      · rw [if_pos hv] at h
        obtain ⟨ws, h1, h2, h3, h4⟩ := ih vis q vis' q' h
        exact ⟨ws, h1, h2, h3, fun w hw =>
          ⟨List.mem_cons_of_mem n (h4 w hw).1, (h4 w hw).2⟩⟩
      · rw [if_neg hv] at h
        obtain ⟨ws, h1, h2, h3, h4⟩ := ih _ _ _ _ h
        refine ⟨n :: ws, by simpa using h1, by simpa using h2, ?_, ?_⟩
        · rw [List.nodup_cons]
          refine ⟨fun hh => ?_, h3⟩
          have := (h4 n hh).2
          simp at this
        · intro w hw
          rcases List.mem_cons.mp hw with rfl | hw2
          · exact ⟨List.mem_cons_self _ _, hv⟩
          · refine ⟨List.mem_cons_of_mem n (h4 w hw2).1, fun hh => (h4 w hw2).2 ?_⟩
            exact List.mem_append_left _ hh

end WordLadder

namespace WordLadder

/-! ### Termination: the loops finish within `fuelBound` iterations -/

theorem bfsP_term (adj : Word → List Word) (goal : Word) (cs : List Word)
    (hFin : ∀ w y, y ∈ adj w → y ∈ cs) :
    ∀ (f : Nat) (q : List (Word × WPath)) (ex : List Word),
      q.length + capSum adj ex cs < f → (bfsP adj goal f q ex).isSome := by
  intro f
  induction f with
  | zero => intro q ex h; omega
  | succ f ih =>
    intro q ex hlt
    cases q with
    | nil => simp [bfsP]
    | cons e rest =>
      obtain ⟨u, p⟩ := e
      by_cases hg : u = goal
      · simp [bfsP, hg]
      · simp only [bfsP, if_neg hg]
        obtain ⟨ws, heq, hnd, hws, -⟩ := enqueueAll_spec p (adj u) rest ex
        rw [heq]
        apply ih
        have hbatch := capSum_removeBatch adj ws ex cs hnd
          (fun w hw => ⟨hFin u w (hws w hw).1, (hws w hw).2⟩)
        simp only [List.length_append, List.length_map, List.length_cons] at hlt ⊢
        omega

theorem ucsP_term (adj : Word → List Word) (goal : Word) (cs : List Word)
    (hFin : ∀ w y, y ∈ adj w → y ∈ cs) :
    ∀ (f : Nat) (fr : List (Nat × Word × WPath)) (ex : List Word),
      (∀ e ∈ fr, e.2.1 ∈ cs) →
      fr.length + capSum adj ex cs < f → (ucsP adj goal f fr ex).isSome := by
  intro f
  induction f with
  | zero => intro fr ex _ h; omega
  | succ f ih =>
    intro fr ex hfr hlt
    cases hpop : popMin ucsLtB fr with
    | none => simp [ucsP, hpop]
    | some pr =>
      obtain ⟨⟨c, u, p⟩, rest⟩ := pr
      simp only [ucsP, hpop]
      have hlen := popMin_length hpop
      by_cases hg : u = goal
      · simp [hg]
      · rw [if_neg hg]
        by_cases hex : u ∈ ex
        · rw [if_pos hex]
          apply ih _ _ (fun e he => hfr e (popMin_rest_mem hpop e he))
          omega
        · rw [if_neg hex]
          have hucs : u ∈ cs := hfr _ (popMin_mem hpop)
          have hrem := capSum_remove adj hucs hex
          have hpush : (((adj u).filter (fun y => decide (¬ y ∈ u :: ex))).map
              (fun y => ((c + 1 : Nat), y, p ++ [y]))).length ≤ (adj u).length := by
            rw [List.length_map]
            exact List.length_filter_le _ _
          apply ih
          · intro e he
            rcases List.mem_append.mp he with he2 | he2
            · exact hfr e (popMin_rest_mem hpop e he2)
            · obtain ⟨y, hy, rfl⟩ := List.mem_map.mp he2
              exact hFin u y (List.mem_of_mem_filter hy)
          · simp only [List.length_append] at hlt ⊢
            omega

theorem astarP_term (adj : Word → List Word) (h0 : Word → Nat) (goal : Word)
    (cs : List Word) (hFin : ∀ w y, y ∈ adj w → y ∈ cs) :
    ∀ (f : Nat) (fr : List (Nat × Nat × Word × WPath)) (ex : List Word),
      (∀ e ∈ fr, e.2.2.1 ∈ cs) →
      fr.length + capSum adj ex cs < f → (astarP adj h0 goal f fr ex).isSome := by
  intro f
  induction f with
  | zero => intro fr ex _ h; omega
  | succ f ih =>
    intro fr ex hfr hlt
    cases hpop : popMin astarLtB fr with
    | none => simp [astarP, hpop]
    | some pr =>
      obtain ⟨⟨pri, c, u, p⟩, rest⟩ := pr
      simp only [astarP, hpop]
      have hlen := popMin_length hpop
      by_cases hg : u = goal
      · simp [hg]
      · rw [if_neg hg]
        by_cases hex : u ∈ ex
        · rw [if_pos hex]
          apply ih _ _ (fun e he => hfr e (popMin_rest_mem hpop e he))
          omega
        · rw [if_neg hex]
          have hucs : u ∈ cs := hfr _ (popMin_mem hpop)
          have hrem := capSum_remove adj hucs hex
          have hpush : (((adj u).filter (fun y => decide (¬ y ∈ u :: ex))).map
              (fun y => (c + 1 + h0 y, (c + 1 : Nat), y, p ++ [y]))).length ≤
              (adj u).length := by
            rw [List.length_map]
            exact List.length_filter_le _ _
          apply ih
          · intro e he
            rcases List.mem_append.mp he with he2 | he2
            · exact hfr e (popMin_rest_mem hpop e he2)
            · obtain ⟨y, hy, rfl⟩ := List.mem_map.mp he2
              exact hFin u y (List.mem_of_mem_filter hy)
          · simp only [List.length_append] at hlt ⊢
            omega

theorem cpeP_term (adj : Word → List Word) (target : Word) (cs : List Word)
    (hFin : ∀ w y, y ∈ adj w → y ∈ cs) :
    ∀ (f : Nat) (q : List Word) (vis : List Word),
      q.length + capSum adj vis cs < f → (cpeP adj target f q vis).isSome := by
  intro f
  induction f with
  | zero => intro q vis h; omega
  | succ f ih =>
    intro q vis hlt
    cases q with
    | nil => simp [cpeP]
    | cons w rest =>
      simp only [cpeP]
      cases hscan : cpeScan target (adj w) vis rest with
      | none => simp
      | some vq =>
        obtain ⟨vis', q'⟩ := vq
        obtain ⟨ws, h1, h2, h3, h4⟩ := cpeScan_some_spec target _ _ _ _ _ hscan
        apply ih
        have hbatch := capSum_removeBatch adj ws vis cs h3
          (fun x hx => ⟨hFin w x (h4 x hx).1, (h4 x hx).2⟩)
        simp only [h1, h2, List.length_append, List.length_cons] at hlt ⊢
        omega

theorem bfsAux_total (g : Graph) (s t : Word) :
    (bfsAux t (fuelBound g s) [(s, [s])] [s] g).isSome := by
  have hFin : ∀ w y, y ∈ lookupD g w → y ∈ cands g s :=
    fun w y hy => List.mem_cons_of_mem s (mem_valsOf_of_mem_lookupD hy)
  have hmono : capSum (lookupD g) [s] (cands g s) ≤ capSum (lookupD g) [] (cands g s) :=
    capSum_mono (lookupD g) (cands g s) (by simp)
  have hterm := bfsP_term (lookupD g) t (cands g s) hFin (fuelBound g s)
    [(s, [s])] [s] (by unfold fuelBound; simp only [List.length_cons, List.length_nil]; omega)
  rw [← bfsAux_pure (lookupD g) t _ _ _ _ (fun _ => rfl)] at hterm
  simpa using hterm

theorem ucsAux_total (g : Graph) (s t : Word) :
    (ucsAux t (fuelBound g s) [(0, s, [s])] [] g).isSome := by
  have hFin : ∀ w y, y ∈ lookupD g w → y ∈ cands g s :=
    fun w y hy => List.mem_cons_of_mem s (mem_valsOf_of_mem_lookupD hy)
  have hterm := ucsP_term (lookupD g) t (cands g s) hFin (fuelBound g s)
    [(0, s, [s])] [] (by intro e he; simp at he; simp [he, cands])
    (by unfold fuelBound; simp only [List.length_cons, List.length_nil]; omega)
  rw [← ucsAux_pure (lookupD g) t _ _ _ _ (fun _ => rfl)] at hterm
  simpa using hterm

theorem astarAux_total (g : Graph) (s t : Word) :
    (astarAux (fun w => heuristic w t) t (fuelBound g s)
      [(heuristic s t, 0, s, [s])] [] g).isSome := by
  have hFin : ∀ w y, y ∈ lookupD g w → y ∈ cands g s :=
    fun w y hy => List.mem_cons_of_mem s (mem_valsOf_of_mem_lookupD hy)
  have hterm := astarP_term (lookupD g) (fun w => heuristic w t) t (cands g s) hFin
    (fuelBound g s) [(heuristic s t, 0, s, [s])] []
    (by intro e he; simp at he; simp [he, cands])
    (by unfold fuelBound; simp only [List.length_cons, List.length_nil]; omega)
  rw [← astarAux_pure (lookupD g) (fun w => heuristic w t) t _ _ _ _ (fun _ => rfl)] at hterm
  simpa using hterm

theorem cpeAux_total (g : Graph) (s t : Word) :
    (cpeAux t (fuelBound g s) [s] [s] g).isSome := by
  have hFin : ∀ w y, y ∈ lookupD g w → y ∈ cands g s :=
    fun w y hy => List.mem_cons_of_mem s (mem_valsOf_of_mem_lookupD hy)
  have hmono : capSum (lookupD g) [s] (cands g s) ≤ capSum (lookupD g) [] (cands g s) :=
    capSum_mono (lookupD g) (cands g s) (by simp)
  have hterm := cpeP_term (lookupD g) t (cands g s) hFin (fuelBound g s)
    [s] [s] (by unfold fuelBound; simp only [List.length_cons, List.length_nil]; omega)
  rw [← cpeAux_pure (lookupD g) t _ _ _ _ (fun _ => rfl)] at hterm
  simpa using hterm

/-- Claim C9: with the computed fuel, every one of the four search loops
terminates with a real answer on every graph and word pair: the fuel value
`fuelBound g s` is never exhausted, because the explored set lets each word be
expanded at most once and bounds the total frontier traffic. -/
theorem claim9 (g : Graph) (s t : Word) :
    (bfsAux t (fuelBound g s) [(s, [s])] [s] g).isSome ∧
    (ucsAux t (fuelBound g s) [(0, s, [s])] [] g).isSome ∧
    (astarAux (fun w => heuristic w t) t (fuelBound g s)
      [(heuristic s t, 0, s, [s])] [] g).isSome ∧
    (cpeAux t (fuelBound g s) [s] [s] g).isSome :=
  ⟨bfsAux_total g s t, ucsAux_total g s t, astarAux_total g s t, cpeAux_total g s t⟩

end WordLadder

namespace WordLadder

/-! ### Reachability and path lemmas -/

theorem reach_trans {adj : Word → List Word} {a b c : Word} {m n : Nat}
    (h1 : Reach adj a b m) (h2 : Reach adj b c n) : Reach adj a c (m + n) := by
  induction h1 with
  | refl w => simpa using h2
  | step hmem _ ih =>
    have := Reach.step hmem (ih h2)
    simpa [Nat.add_right_comm] using this

theorem reach_snoc {adj : Word → List Word} {s v y : Word} {n : Nat}
    (h : Reach adj s v n) (hy : y ∈ adj v) : Reach adj s y (n + 1) :=
  reach_trans h (Reach.step hy (Reach.refl y))

theorem reach_nil_graph {s z : Word} {n : Nat}
    (h : Reach (lookupD ([] : Graph)) s z n) : s = z := by
  induction h with
  | refl w => rfl
  | step hmem _ ih => simp [lookupD] at hmem

theorem isPathTo_singleton (adj : Word → List Word) (s : Word) :
    IsPathTo adj s [s] s :=
  ⟨rfl, rfl, List.chain'_singleton s⟩

theorem isPathTo_length_pos {adj : Word → List Word} {s w : Word} {p : WPath}
    (h : IsPathTo adj s p w) : 1 ≤ p.length := by
  obtain ⟨h1, -, -⟩ := h
  cases p with
  | nil => simp at h1
  | cons a q => simp

theorem isPathTo_concat {adj : Word → List Word} {s u y : Word} {p : WPath}
    (h : IsPathTo adj s p u) (hy : y ∈ adj u) : IsPathTo adj s (p ++ [y]) y := by
  obtain ⟨h1, h2, h3⟩ := h
  refine ⟨?_, ?_, ?_⟩
  · cases p with
    | nil => simp at h1
    | cons a q => simpa using h1
  · exact List.getLast?_concat p
  · rw [List.chain'_append]
    refine ⟨h3, List.chain'_singleton y, ?_⟩
    intro x hx z hz
    simp only [List.head?_cons, Option.mem_def, Option.some.injEq] at hz
    rw [h2] at hx
    simp only [Option.mem_def, Option.some.injEq] at hx
    subst hz
    subst hx
    exact hy

theorem isPathTo_reach {adj : Word → List Word} :
    ∀ {p : WPath} {s w : Word}, IsPathTo adj s p w → Reach adj s w (p.length - 1) := by
  intro p
  induction p with
  | nil => intro s w h; simp [IsPathTo] at h
  | cons a q ih =>
    intro s w h
    obtain ⟨h1, h2, h3⟩ := h
    simp only [List.head?_cons, Option.some.injEq] at h1
    subst h1
    cases q with
    | nil =>
      simp only [List.getLast?_singleton, Option.some.injEq] at h2
      subst h2
      exact Reach.refl _
    | cons b r =>
      have hchain := List.chain'_cons.mp h3
      have hrest : IsPathTo adj b (b :: r) w :=
        ⟨rfl, by simpa using h2, hchain.2⟩
      have := Reach.step hchain.1 (ih hrest)
      simpa using this

theorem chain'_tail_pred {R : Word → Word → Prop} :
    ∀ {p : WPath}, List.Chain' R p → ∀ b ∈ p.tail, ∃ a, R a b := by
  intro p
  induction p with
  | nil => intro _ b hb; simp at hb
  | cons x q ih =>
    intro h b hb
    simp only [List.tail_cons] at hb
    cases q with
    | nil => simp at hb
    | cons y r =>
      have hc := List.chain'_cons.mp h
      rcases List.mem_cons.mp hb with rfl | hb2
      · exact ⟨x, hc.1⟩
      · exact ih hc.2 b (by simpa using hb2)

/-! ### The Hamming-count heuristic is 1-Lipschitz along graph edges -/

theorem heuristic_triangle :
    ∀ (u v t : Word), u.length = v.length →
      heuristic u t ≤ heuristic v t + heuristic u v := by
  intro u
  induction u with
  | nil => intro v t h; simp [heuristic]
  | cons a u ih =>
    intro v t h
    cases v with
    | nil => simp at h
    | cons b v =>
      cases t with
      | nil => simp [heuristic]
      | cons c t =>
        have hlen : u.length = v.length := by simpa using h
        have hih := ih v t hlen
        unfold heuristic at hih ⊢
        simp only [List.zip_cons_cons, List.countP_cons, decide_eq_true_eq]
        have key : (if a ≠ c then 1 else 0) ≤
            ((if b ≠ c then 1 else 0) + (if a ≠ b then 1 else 0) : Nat) := by
          by_cases h1 : a = c
          · simp [h1]
          · by_cases h2 : a = b
            · have h3 : ¬ b = c := fun hh => h1 (h2.trans hh)
              simp [h1, h2, h3]
            · simp [h1, h2]
        omega

theorem oneDiff_heuristic_step {u v t : Word} (h : oneDiff u v) :
    heuristic u t ≤ heuristic v t + 1 := by
  have := heuristic_triangle u v t h.1
  rw [h.2] at this
  exact this

theorem reach_heuristic_le {adj : Word → List Word} {h : Word → Nat}
    (hH : ∀ u v, v ∈ adj u → h u ≤ h v + 1) :
    ∀ {w z : Word} {n : Nat}, Reach adj w z n → h w ≤ n + h z := by
  intro w z n hr
  induction hr with
  | refl w => omega
  | step hmem _ ih =>
    have := hH _ _ hmem
    omega

theorem reach_length {adj : Word → List Word}
    (hEdge : ∀ u v, v ∈ adj u → oneDiff u v) :
    ∀ {u z : Word} {n : Nat}, Reach adj u z n → u.length = z.length := by
  intro u z n hr
  induction hr with
  | refl w => rfl
  | step hmem _ ih => exact ((hEdge _ _ hmem).1).trans ih

end WordLadder

namespace WordLadder

/-! ### BFS: invariant preservation and correctness -/

/-- Walking from an explored word to an unexplored one must pass through a word
that still has a queue entry: retired words only have explored neighbours. -/
theorem bfs_escape {adj : Word → List Word} {q : List (Word × WPath)} {ex : List Word}
    (hret : ∀ v ∈ ex, ¬ v ∈ q.map Prod.fst → ∀ y ∈ adj v, y ∈ ex) :
    ∀ (k : Nat) (v z : Word), v ∈ ex → Reach adj v z k → ¬ z ∈ ex →
      ∃ e ∈ q, ∃ j, j ≤ k ∧ Reach adj e.1 z j := by
  intro k
  induction k with
  | zero =>
    intro v z hv hr hz
    cases hr with
    | refl => exact absurd hv hz
  | succ k0 IH =>
    intro v z hv hr hz
    by_cases hvq : v ∈ q.map Prod.fst
    · obtain ⟨e, he, hfst⟩ := List.mem_map.mp hvq
      exact ⟨e, he, k0 + 1, Nat.le_refl _, hfst ▸ hr⟩
    · cases hr with
      | step hv1 hrest =>
        have hv1ex := hret v hv hvq _ hv1
        obtain ⟨e, he, j, hj, hrj⟩ := IH _ _ hv1ex hrest hz
        exact ⟨e, he, j, by omega, hrj⟩

theorem bfsInv_step {adj : Word → List Word} {s goal u : Word} {p : WPath}
    {rest : List (Word × WPath)} {ex : List Word}
    (hInv : BfsInv adj s goal ((u, p) :: rest) ex) (hg : u ≠ goal) :
    BfsInv adj s goal (enqueueAll p (adj u) rest ex).1 (enqueueAll p (adj u) rest ex).2 := by
  obtain ⟨ws, heq, hnd, hws, hall⟩ := enqueueAll_spec p (adj u) rest ex
  rw [heq]
  simp only
  have hvu : IsPathTo adj s p u := hInv.valid (u, p) (List.mem_cons_self _ _)
  have hpl : 1 ≤ p.length := isPathTo_length_pos hvu
  have huex : u ∈ ex := hInv.inE (u, p) (List.mem_cons_self _ _)
  obtain ⟨L, q1, q2, hsplit, hL, hseg1, hseg2⟩ := hInv.seg
  have hbounds : ∀ e ∈ (u, p) :: rest,
      p.length ≤ e.2.length ∧ e.2.length ≤ p.length + 1 := by
    cases q1 with
    | nil =>
      simp only [List.nil_append] at hsplit
      have hpL : p.length = L + 1 := hseg2 (u, p) (by rw [← hsplit]; exact List.mem_cons_self _ _)
      intro e he
      have := hseg2 e (by rw [← hsplit]; exact he)
      omega
    | cons e1 q1t =>
      simp only [List.cons_append] at hsplit
      have he1 : e1 = (u, p) := by
        have := hsplit
        injection this with h1 h2
        exact h1.symm
      have hpL : p.length = L := by
        have := hseg1 e1 (List.mem_cons_self _ _)
        rw [he1] at this
        exact this
      intro e he
      have hrest2 : rest = q1t ++ q2 := by
        injection hsplit with h1 h2
      rcases List.mem_cons.mp he with rfl | hmem
      · exact ⟨Nat.le_refl _, Nat.le_succ _⟩
      · rw [hrest2] at hmem
        rcases List.mem_append.mp hmem with h3 | h3
        · have := hseg1 e (List.mem_cons_of_mem _ h3)
          omega
        · have := hseg2 e h3
          omega
  have hwsq : ∀ w ∈ ws, w ∈ (rest ++ ws.map (fun w => (w, p ++ [w]))).map Prod.fst := by
    intro w hw
    rw [List.map_append]
    refine List.mem_append_right _ ?_
    rw [List.map_map]
    simpa using hw
  refine ⟨?_, ?_, ?_, ?_, ?_, ?_, ?_, ?_⟩
  · -- valid
    intro e he
    rcases List.mem_append.mp he with h2 | h2
    · exact hInv.valid e (List.mem_cons_of_mem _ h2)
    · obtain ⟨w, hw, rfl⟩ := List.mem_map.mp h2
      exact isPathTo_concat hvu (hws w hw).1
  · -- seg
    cases q1 with
    | nil =>
      simp only [List.nil_append] at hsplit
      have hpL : p.length = L + 1 := hseg2 (u, p) (by rw [← hsplit]; exact List.mem_cons_self _ _)
      refine ⟨L + 1, rest, ws.map (fun w => (w, p ++ [w])), rfl, by omega, ?_, ?_⟩
      · intro e he
        have he2 : e ∈ (u, p) :: rest := List.mem_cons_of_mem _ he
        rw [← hsplit] at hseg2
        have := hseg2 e he2
        omega
      · intro e he
        obtain ⟨w, hw, rfl⟩ := List.mem_map.mp he
        simp [hpL]
    | cons e1 q1t =>
      simp only [List.cons_append] at hsplit
      have he1 : e1 = (u, p) := by
        injection hsplit with h1 h2
        exact h1.symm
      have hrest2 : rest = q1t ++ q2 := by
        injection hsplit with h1 h2
      have hpL : p.length = L := by
        have := hseg1 e1 (List.mem_cons_self _ _)
        rw [he1] at this
        exact this
      refine ⟨L, q1t, q2 ++ ws.map (fun w => (w, p ++ [w])), ?_, hL, ?_, ?_⟩
      · rw [hrest2, List.append_assoc]
      · intro e he
        exact hseg1 e (List.mem_cons_of_mem _ he)
      · intro e he
        rcases List.mem_append.mp he with h3 | h3
        · exact hseg2 e h3
        · obtain ⟨w, hw, rfl⟩ := List.mem_map.mp h3
          simp [hpL]
  · -- inE
    intro e he
    rcases List.mem_append.mp he with h2 | h2
    · exact List.mem_append_left _ (hInv.inE e (List.mem_cons_of_mem _ h2))
    · obtain ⟨w, hw, rfl⟩ := List.mem_map.mp h2
      exact List.mem_append_right _ hw
  · -- nd
    rw [List.map_append, List.map_map]
    have hmm : ws.map (Prod.fst ∘ fun w => (w, p ++ [w])) = ws := by
      rw [show (Prod.fst ∘ fun w : Word => (w, p ++ [w])) = id from rfl, List.map_id]
    rw [hmm]
    refine List.Nodup.append ?_ hnd ?_
    · exact (hInv.nd).of_cons
    · intro a ha hws2
      obtain ⟨e, he, hfst⟩ := List.mem_map.mp ha
      have : a ∈ ex := hfst ▸ hInv.inE e (List.mem_cons_of_mem _ he)
      exact (hws a hws2).2 this
  · -- ret
    intro v hv hnq y hy
    rcases List.mem_append.mp hv with hvex | hvws
    · by_cases hvu2 : v = u
      · subst hvu2
        exact hall y hy
      · by_cases hvr : v ∈ rest.map Prod.fst
        · exfalso
          apply hnq
          rw [List.map_append]
          exact List.mem_append_left _ hvr
        · have hvold : ¬ v ∈ ((u, p) :: rest).map Prod.fst := by
            simp only [List.map_cons, List.mem_cons, not_or]
            exact ⟨hvu2, hvr⟩
          exact List.mem_append_left _ (hInv.ret v hvex hvold y hy)
    · exact absurd (hwsq v hvws) hnq
  · -- cov
    intro z n hr hz
    have hzex : ¬ z ∈ ex := fun hh => hz (List.mem_append_left _ hh)
    obtain ⟨e0, he0, m0, hrm0, hcm0⟩ := hInv.cov z n hr hzex
    have repair : ∀ m : Nat, ∀ e ∈ (u, p) :: rest, Reach adj e.1 z m →
        e.2.length - 1 + m ≤ n →
        ∃ e' ∈ rest ++ ws.map (fun w => (w, p ++ [w])), ∃ m',
          Reach adj e'.1 z m' ∧ e'.2.length - 1 + m' ≤ n := by
      intro m
      induction m using Nat.strong_induction_on with
      | _ m IH =>
        intro e he hrm hcm
        rcases List.mem_cons.mp he with rfl | hmem
        · -- e = (u, p)
          simp only at hrm hcm
          cases hrm with
          | refl => exact absurd huex hzex
          | step hv1 hrest2 =>
            rename_i v1 m0x
            by_cases hv1ex : v1 ∈ ex
            · by_cases hv1q : v1 ∈ ((u, p) :: rest).map Prod.fst
              · obtain ⟨e2, he2, hfst⟩ := List.mem_map.mp hv1q
                rcases List.mem_cons.mp he2 with rfl | he2mem
                · -- e2 = (u,p), so v1 = u
                  have hv1u : v1 = u := by simpa using hfst.symm
                  subst hv1u
                  exact IH m0x (by omega) (v1, p) (List.mem_cons_self _ _) hrest2
                    (by simp only; omega)
                · refine ⟨e2, List.mem_append_left _ he2mem, m0x, hfst ▸ hrest2, ?_⟩
                  have hb := (hbounds e2 (List.mem_cons_of_mem _ he2mem)).2
                  omega
              · obtain ⟨e3, he3, j, hj, hrj⟩ :=
                  bfs_escape hInv.ret m0x v1 z hv1ex hrest2 hzex
                rcases List.mem_cons.mp he3 with rfl | he3mem
                · exact IH j (by omega) (u, p) (List.mem_cons_self _ _)
                    (by simpa using hrj) (by simp only; omega)
                · refine ⟨e3, List.mem_append_left _ he3mem, j, hrj, ?_⟩
                  have hb := (hbounds e3 (List.mem_cons_of_mem _ he3mem)).2
                  omega
            · have hv1ws : v1 ∈ ws := by
                rcases List.mem_append.mp (hall v1 hv1) with h3 | h3
                · exact absurd h3 hv1ex
                · exact h3
              refine ⟨(v1, p ++ [v1]), ?_, m0x, hrest2, ?_⟩
              · refine List.mem_append_right _ ?_
                exact List.mem_map.mpr ⟨v1, hv1ws, rfl⟩
              · simp only [List.length_append, List.length_cons, List.length_nil]
                omega
        · exact ⟨e, List.mem_append_left _ hmem, m, hrm, hcm⟩
    exact repair m0 e0 he0 hrm0 hcm0
  · -- opt
    intro e he n0 hrn
    rcases List.mem_append.mp he with h2 | h2
    · exact hInv.opt e (List.mem_cons_of_mem _ h2) n0 hrn
    · obtain ⟨w, hw, rfl⟩ := List.mem_map.mp h2
      simp only [List.length_append, List.length_cons, List.length_nil]
      have hwex : ¬ w ∈ ex := (hws w hw).2
      obtain ⟨e2, he2, m, hrm, hcm⟩ := hInv.cov w n0 hrn hwex
      cases m with
      | zero =>
        cases hrm with
        | refl => exact absurd (hInv.inE e2 he2) hwex
      | succ m0 =>
        have hb := (hbounds e2 he2).1
        omega
  · -- gq
    intro hgoal
    rcases List.mem_append.mp hgoal with h2 | h2
    · have := hInv.gq h2
      simp only [List.map_cons, List.mem_cons] at this
      rcases this with h3 | h3
      · exact absurd h3.symm hg
      · rw [List.map_append]
        exact List.mem_append_left _ h3
    · exact hwsq goal h2

theorem bfsInv_init (adj : Word → List Word) (s goal : Word) :
    BfsInv adj s goal [(s, [s])] [s] := by
  refine ⟨?_, ?_, ?_, ?_, ?_, ?_, ?_, ?_⟩
  · intro e he
    simp only [List.mem_singleton] at he
    subst he
    exact isPathTo_singleton adj s
  · refine ⟨1, [(s, [s])], [], rfl, Nat.le_refl 1, ?_, by simp⟩
    intro e he
    simp only [List.mem_singleton] at he
    subst he
    rfl
  · intro e he
    simp only [List.mem_singleton] at he
    simp [he]
  · simp
  · intro v hv hnq y hy
    simp only [List.mem_singleton] at hv
    simp [hv] at hnq
  · intro z n hr hz
    exact ⟨(s, [s]), List.mem_singleton.mpr rfl, n, hr, by simp⟩
  · intro e he n hr
    simp only [List.mem_singleton] at he
    simp [he]
  · intro h
    simp only [List.mem_singleton] at h
    simp [h]

theorem bfsP_run {adj : Word → List Word} {s goal : Word} :
    ∀ (f : Nat) (q : List (Word × WPath)) (ex : List Word),
      BfsInv adj s goal q ex →
      (bfsP adj goal f q ex = some none → ∀ n, ¬ Reach adj s goal n) ∧
      (∀ c pth, bfsP adj goal f q ex = some (some (c, pth)) →
        IsPathTo adj s pth goal ∧ pth.length = c + 1 ∧ Reach adj s goal c ∧
        (∀ n, Reach adj s goal n → c ≤ n)) := by
  intro f
  induction f with
  | zero =>
    intro q ex hInv
    constructor
    · intro h; simp [bfsP] at h
    · intro c pth h; simp [bfsP] at h
  | succ f ih =>
    intro q ex hInv
    cases q with
    | nil =>
      constructor
      · intro _ n hr
        by_cases hge : goal ∈ ex
        · have := hInv.gq hge
          simp at this
        · obtain ⟨e, he, -⟩ := hInv.cov goal n hr hge
          simp at he
      · intro c pth h
        simp [bfsP] at h
    | cons e rest =>
      obtain ⟨u, p⟩ := e
      by_cases hg : u = goal
      · subst hg
        have hval : IsPathTo adj s p u := hInv.valid (u, p) (List.mem_cons_self _ _)
        have hpl : 1 ≤ p.length := isPathTo_length_pos hval
        constructor
        · intro h
          simp [bfsP] at h
        · intro c pth h
          simp only [bfsP, eq_self_iff_true, if_true, Option.some.injEq,
            Prod.mk.injEq] at h
          have hc : p.length - 1 = c := h.1
          have hp : p = pth := h.2
          subst hp
          refine ⟨hval, by omega, ?_, ?_⟩
          · have := isPathTo_reach hval
            rw [hc] at this
            exact this
          · intro n hr
            have h2 : p.length - 1 ≤ n := hInv.opt (u, p) (List.mem_cons_self _ _) n hr
            omega
      · have hrec := ih _ _ (bfsInv_step hInv hg)
        constructor
        · intro h
          apply hrec.1
          simpa [bfsP, if_neg hg] using h
        · intro c pth h
          apply hrec.2
          simpa [bfsP, if_neg hg] using h

end WordLadder

namespace WordLadder

/-! ### Best-first search (A*, and UCS via the zero heuristic): correctness -/

/-- A popped unexplored entry is optimal: its recorded cost is the true
shortest distance to its word (the frontier-cut covering plus heap minimality
plus heuristic consistency). -/
theorem astar_pop_opt {adj : Word → List Word} {h : Word → Nat} {s goal : Word}
    {fr : List (Nat × Nat × Word × WPath)} {ex : List Word}
    (hH : ∀ u v, v ∈ adj u → h u ≤ h v + 1)
    (hInv : AstarInv adj h s goal fr ex)
    {pri c : Nat} {u : Word} {p : WPath} {rest : List (Nat × Nat × Word × WPath)}
    (hpop : popMin astarLtB fr = some ((pri, c, u, p), rest))
    (hu : ¬ u ∈ ex) : ∀ n, Reach adj s u n → c ≤ n := by
  intro n hn
  obtain ⟨e1, he1, m, hrm, hcm⟩ := hInv.cut u n hn hu
  have hmin : pri ≤ e1.1 :=
    @popMin_min _ astarLtB (fun e => e.1)
      (fun a b hab => astarLtB_fst_le hab) (fun a b hab => astarLtB_fst_ge hab)
      fr (pri, c, u, p) rest hpop e1 he1
  have hp1 : pri = c + h u := (hInv.valid _ (popMin_mem hpop)).2.2
  have hp2 : e1.1 = e1.2.1 + h e1.2.2.1 := (hInv.valid e1 he1).2.2
  have hcons : h e1.2.2.1 ≤ m + h u := reach_heuristic_le hH hrm
  omega

/-- Walking from an explored word to an unexplored one must cross the
frontier: every explored word's neighbours are explored or queued one step
above that word's optimal cost. -/
theorem astar_escape {adj : Word → List Word} {s : Word}
    {fr : List (Nat × Nat × Word × WPath)} {ex : List Word}
    (heb : ∀ v ∈ ex, ∀ y ∈ adj v, y ∈ ex ∨
      ∃ e ∈ fr, e.2.2.1 = y ∧ ∀ n, Reach adj s v n → e.2.1 ≤ n + 1) :
    ∀ (k : Nat) (v z : Word), v ∈ ex → Reach adj v z k → ¬ z ∈ ex →
      ∃ e ∈ fr, ¬ e.2.2.1 ∈ ex ∧ ∃ j, j + 1 ≤ k ∧ Reach adj e.2.2.1 z j ∧
        ∀ n, Reach adj s v n → e.2.1 + j ≤ n + k := by
  intro k
  induction k with
  | zero =>
    intro v z hv hr hz
    cases hr with
    | refl => exact absurd hv hz
  | succ k0 IH =>
    intro v z hv hr hz
    cases hr with
    | step hv1 hrest =>
      rename_i v1
      by_cases hv1ex : v1 ∈ ex
      · obtain ⟨e, he, hne, j, hj, hrj, hbound⟩ := IH v1 z hv1ex hrest hz
        refine ⟨e, he, hne, j, by omega, hrj, ?_⟩
        intro n hn
        have := hbound (n + 1) (reach_snoc hn hv1)
        omega
      · rcases heb v hv v1 hv1 with h2 | ⟨e, he, hew, hbound⟩
        · exact absurd h2 hv1ex
        · refine ⟨e, he, ?_, k0, Nat.le_refl _, ?_, ?_⟩
          · rw [hew]; exact hv1ex
          · rw [hew]; exact hrest
          · intro n hn
            have := hbound n hn
            omega

theorem astarInv_skip {adj : Word → List Word} {h : Word → Nat} {s goal : Word}
    {fr : List (Nat × Nat × Word × WPath)} {ex : List Word}
    (hInv : AstarInv adj h s goal fr ex)
    {pri c : Nat} {u : Word} {p : WPath} {rest : List (Nat × Nat × Word × WPath)}
    (hpop : popMin astarLtB fr = some ((pri, c, u, p), rest))
    (hu : u ∈ ex) : AstarInv adj h s goal rest ex := by
  have hvpop := hInv.valid _ (popMin_mem hpop)
  have hvp : IsPathTo adj s p u := hvpop.1
  have hlenp : p.length = c + 1 := hvpop.2.1
  have hsu : Reach adj s u c := by
    have := isPathTo_reach hvp
    rw [hlenp] at this
    simpa using this
  refine ⟨?_, ?_, ?_, hInv.ge⟩
  · intro e he
    exact hInv.valid e (popMin_rest_mem hpop e he)
  · intro z n hr hz
    obtain ⟨e1, he1, m, hrm, hcm⟩ := hInv.cut z n hr hz
    rcases popMin_mem_or hpop e1 he1 with rfl | hrest
    · have hrm2 : Reach adj u z m := hrm
      have hcm2 : c + m ≤ n := hcm
      obtain ⟨e, he, hne, j, hj, hrj, hbound⟩ :=
        astar_escape hInv.eb m u z hu hrm2 hz
      have herest : e ∈ rest := by
        rcases popMin_mem_or hpop e he with rfl | h2
        · exact absurd hu hne
        · exact h2
      refine ⟨e, herest, j, hrj, ?_⟩
      have := hbound c hsu
      omega
    · exact ⟨e1, hrest, m, hrm, hcm⟩
  · intro v hv y hy
    rcases hInv.eb v hv y hy with h2 | ⟨e, he, hew, hb⟩
    · exact Or.inl h2
    · rcases popMin_mem_or hpop e he with rfl | hrest
      · exact Or.inl (hew ▸ hu)
      · exact Or.inr ⟨e, hrest, hew, hb⟩

theorem astarInv_explore {adj : Word → List Word} {h : Word → Nat} {s goal : Word}
    {fr : List (Nat × Nat × Word × WPath)} {ex : List Word}
    (hH : ∀ u v, v ∈ adj u → h u ≤ h v + 1)
    (hInv : AstarInv adj h s goal fr ex)
    {pri c : Nat} {u : Word} {p : WPath} {rest : List (Nat × Nat × Word × WPath)}
    (hpop : popMin astarLtB fr = some ((pri, c, u, p), rest))
    (hu : ¬ u ∈ ex) (hg : u ≠ goal) :
    AstarInv adj h s goal
      (rest ++ ((adj u).filter (fun y => decide (¬ y ∈ u :: ex))).map
        (fun y => (c + 1 + h y, c + 1, y, p ++ [y])))
      (u :: ex) := by
  have hvpop := hInv.valid _ (popMin_mem hpop)
  have hvp : IsPathTo adj s p u := hvpop.1
  have hlenp : p.length = c + 1 := hvpop.2.1
  have hsu : Reach adj s u c := by
    have := isPathTo_reach hvp
    rw [hlenp] at this
    simpa using this
  have hopt : ∀ n, Reach adj s u n → c ≤ n := astar_pop_opt hH hInv hpop hu
  refine ⟨?_, ?_, ?_, ?_⟩
  · -- valid
    intro e he
    rcases List.mem_append.mp he with h2 | h2
    · exact hInv.valid e (popMin_rest_mem hpop e h2)
    · obtain ⟨y, hy, rfl⟩ := List.mem_map.mp h2
      have hyadj : y ∈ adj u := List.mem_of_mem_filter hy
      exact ⟨isPathTo_concat hvp hyadj, by simp [hlenp], rfl⟩
  · -- cut
    intro z n hr hz
    have hzex : ¬ z ∈ ex := fun hh => hz (List.mem_cons_of_mem _ hh)
    have hzu : ¬ z = u := fun hh => hz (hh ▸ List.mem_cons_self _ _)
    obtain ⟨e0, he0, m0, hrm0, hcm0⟩ := hInv.cut z n hr hzex
    have repair : ∀ m : Nat, ∀ e, e ∈ fr → Reach adj e.2.2.1 z m → e.2.1 + m ≤ n →
        ∃ e' ∈ rest ++ ((adj u).filter (fun y => decide (¬ y ∈ u :: ex))).map
          (fun y => (c + 1 + h y, c + 1, y, p ++ [y])), ∃ m',
          Reach adj e'.2.2.1 z m' ∧ e'.2.1 + m' ≤ n := by
      intro m
      induction m using Nat.strong_induction_on with
      | _ m IH =>
        intro e he hrm hcm
        rcases popMin_mem_or hpop e he with rfl | hrest
        · have hrm2 : Reach adj u z m := hrm
          have hcm2 : c + m ≤ n := hcm
          cases hrm2 with
          | refl => exact absurd rfl hzu
          | step hv1 hrest2 =>
            rename_i v1 m0x
            by_cases hv1new : v1 ∈ u :: ex
            · rcases List.mem_cons.mp hv1new with rfl | hv1ex
              · have harg : c + m0x ≤ n := by omega
                exact IH m0x (by omega) (pri, c, v1, p) (popMin_mem hpop) hrest2 harg
              · obtain ⟨e3, he3, hne3, j, hj, hrj, hbound⟩ :=
                  astar_escape hInv.eb m0x v1 z hv1ex hrest2 hzex
                have hsv1 : Reach adj s v1 (c + 1) := reach_snoc hsu hv1
                have hb2 := hbound (c + 1) hsv1
                rcases popMin_mem_or hpop e3 he3 with rfl | he3rest
                · have harg : c + j ≤ n := by
                    have hb3 : c + j ≤ c + 1 + m0x := hb2
                    omega
                  exact IH j (by omega) (pri, c, u, p) (popMin_mem hpop) hrj harg
                · refine ⟨e3, List.mem_append_left _ he3rest, j, hrj, ?_⟩
                  have hb3 : e3.2.1 + j ≤ c +  1 + m0x := hb2
                  omega
            · refine ⟨(c + 1 + h v1, c + 1, v1, p ++ [v1]), ?_, m0x, hrest2, ?_⟩
              · refine List.mem_append_right _ (List.mem_map.mpr ⟨v1, ?_, rfl⟩)
                exact List.mem_filter.mpr ⟨hv1, by simpa using hv1new⟩
              · show c + 1 + m0x ≤ n
                omega
        · exact ⟨e, List.mem_append_left _ hrest, m, hrm, hcm⟩
    exact repair m0 e0 he0 hrm0 hcm0
  · -- eb
    intro v hv y hy
    rcases List.mem_cons.mp hv with rfl | hvex
    · by_cases hynew : y ∈ v :: ex
      · exact Or.inl hynew
      · refine Or.inr ⟨(c + 1 + h y, c + 1, y, p ++ [y]), ?_, rfl, ?_⟩
        · exact List.mem_append_right _
            (List.mem_map.mpr ⟨y, List.mem_filter.mpr ⟨hy, by simpa using hynew⟩, rfl⟩)
        · intro n hn
          have := hopt n hn
          show c + 1 ≤ n + 1
          omega
    · rcases hInv.eb v hvex y hy with h2 | ⟨e, he, hew, hb⟩
      · exact Or.inl (List.mem_cons_of_mem _ h2)
      · rcases popMin_mem_or hpop e he with rfl | hrest
        · refine Or.inl ?_
          rw [← hew]
          exact List.mem_cons_self _ _
        · exact Or.inr ⟨e, List.mem_append_left _ hrest, hew, hb⟩
  · -- ge
    simp only [List.mem_cons, not_or]
    exact ⟨fun hh => hg hh.symm, hInv.ge⟩

theorem astarInv_init (adj : Word → List Word) (h : Word → Nat) (s goal : Word)
    (hg : ¬ goal ∈ ([] : List Word)) :
    AstarInv adj h s goal [(h s, 0, s, [s])] [] := by
  refine ⟨?_, ?_, ?_, hg⟩
  · intro e he
    simp only [List.mem_singleton] at he
    subst he
    exact ⟨isPathTo_singleton adj s, rfl, by show h s = 0 + h s; omega⟩
  · intro z n hr hz
    exact ⟨(h s, 0, s, [s]), List.mem_singleton.mpr rfl, n, hr,
      by show 0 + n ≤ n; omega⟩
  · intro v hv
    simp at hv

theorem astarP_run {adj : Word → List Word} {h : Word → Nat} {s goal : Word}
    (hH : ∀ u v, v ∈ adj u → h u ≤ h v + 1) :
    ∀ (f : Nat) (fr : List (Nat × Nat × Word × WPath)) (ex : List Word),
      AstarInv adj h s goal fr ex →
      (astarP adj h goal f fr ex = some none → ∀ n, ¬ Reach adj s goal n) ∧
      (∀ c pth, astarP adj h goal f fr ex = some (some (c, pth)) →
        IsPathTo adj s pth goal ∧ pth.length = c + 1 ∧ Reach adj s goal c ∧
        (∀ n, Reach adj s goal n → c ≤ n)) := by
  intro f
  induction f with
  | zero =>
    intro fr ex hInv
    constructor
    · intro hres; simp [astarP] at hres
    · intro c pth hres; simp [astarP] at hres
  | succ f ih =>
    intro fr ex hInv
    cases hpop : popMin astarLtB fr with
    | none =>
      have hfr : fr = [] := popMin_eq_none.mp hpop
      constructor
      · intro _ n hr
        obtain ⟨e, he, -⟩ := hInv.cut goal n hr hInv.ge
        rw [hfr] at he
        simp at he
      · intro c pth hres
        simp [astarP, hpop] at hres
    | some pr =>
      obtain ⟨⟨pri, c, u, p⟩, rest⟩ := pr
      by_cases hg : u = goal
      · subst hg
        have hvpop := hInv.valid _ (popMin_mem hpop)
        have hvp : IsPathTo adj s p u := hvpop.1
        have hlenp : p.length = c + 1 := hvpop.2.1
        have hopt := astar_pop_opt hH hInv hpop hInv.ge
        constructor
        · intro hres
          simp [astarP, hpop] at hres
        · intro c2 pth hres
          simp only [astarP, hpop, eq_self_iff_true, if_true, Option.some.injEq,
            Prod.mk.injEq] at hres
          have hc : c = c2 := hres.1
          have hp : p = pth := hres.2
          subst hp
          subst hc
          refine ⟨hvp, hlenp, ?_, hopt⟩
          have := isPathTo_reach hvp
          rw [hlenp] at this
          simpa using this
      · by_cases hex : u ∈ ex
        · have hrec := ih rest ex (astarInv_skip hInv hpop hex)
          constructor
          · intro hres
            apply hrec.1
            simpa [astarP, hpop, if_neg hg, if_pos hex] using hres
          · intro c2 pth hres
            apply hrec.2
            simpa [astarP, hpop, if_neg hg, if_pos hex] using hres
        · have hrec := ih _ _ (astarInv_explore hH hInv hpop hex hg)
          constructor
          · intro hres
            apply hrec.1
            simpa [astarP, hpop, if_neg hg, if_neg hex] using hres
          · intro c2 pth hres
            apply hrec.2
            simpa [astarP, hpop, if_neg hg, if_neg hex] using hres

/-- Lightweight soundness: any returned result of the best-first loop is a
valid path of the recorded cost (no heuristic assumptions). -/
theorem astarP_sound {adj : Word → List Word} {h : Word → Nat} {s goal : Word} :
    ∀ (f : Nat) (fr : List (Nat × Nat × Word × WPath)) (ex : List Word),
      (∀ e ∈ fr, IsPathTo adj s e.2.2.2 e.2.2.1 ∧ e.2.2.2.length = e.2.1 + 1) →
      ∀ c pth, astarP adj h goal f fr ex = some (some (c, pth)) →
        IsPathTo adj s pth goal ∧ pth.length = c + 1 := by
  intro f
  induction f with
  | zero =>
    intro fr ex _ c pth hres
    simp [astarP] at hres
  | succ f ih =>
    intro fr ex hval c pth hres
    cases hpop : popMin astarLtB fr with
    | none =>
      simp [astarP, hpop] at hres
    | some pr =>
      obtain ⟨⟨pri, c0, u, p⟩, rest⟩ := pr
      have hvpop := hval _ (popMin_mem hpop)
      by_cases hg : u = goal
      · subst hg
        simp only [astarP, hpop, eq_self_iff_true, if_true, Option.some.injEq,
          Prod.mk.injEq] at hres
        have hc : c0 = c := hres.1
        have hp : p = pth := hres.2
        subst hp
        subst hc
        exact ⟨hvpop.1, hvpop.2⟩
      · by_cases hex : u ∈ ex
        · refine ih rest ex (fun e he => hval e (popMin_rest_mem hpop e he)) c pth ?_
          simpa [astarP, hpop, if_neg hg, if_pos hex] using hres
        · refine ih _ _ ?_ c pth (by simpa [astarP, hpop, if_neg hg, if_neg hex] using hres)
          intro e he
          rcases List.mem_append.mp he with h2 | h2
          · exact hval e (popMin_rest_mem hpop e h2)
          · obtain ⟨y, hy, rfl⟩ := List.mem_map.mp h2
            have hyadj : y ∈ adj u := List.mem_of_mem_filter hy
            exact ⟨isPathTo_concat hvpop.1 hyadj, by simp [hvpop.2]⟩

end WordLadder

namespace WordLadder

/-! ### UCS is the best-first loop with the zero heuristic -/

theorem astarLtB_embed (a b : Nat × Word × WPath) :
    astarLtB (a.1, a) (b.1, b) = ucsLtB a b := by
  by_cases h1 : a.1 < b.1
  · simp [astarLtB, ucsLtB, h1]
  · by_cases h2 : a.1 = b.1
    · simp [astarLtB, h1, h2]
    · simp [astarLtB, ucsLtB, h1, h2]

theorem popMin_map {β : Type} (f : α → β) (lt1 : α → α → Bool) (lt2 : β → β → Bool)
    (hord : ∀ a b, lt2 (f a) (f b) = lt1 a b) :
    ∀ l : List α, popMin lt2 (l.map f) =
      (popMin lt1 l).map (fun pr => (f pr.1, pr.2.map f)) := by
  intro l
  induction l with
  | nil => rfl
  | cons x xs ih =>
    cases xs with
    | nil => rfl
    | cons y ys =>
      simp only [List.map_cons] at ih ⊢
      simp only [popMin, ih]
      cases hp : popMin lt1 (y :: ys) with
      | none => exact absurd hp (by simp [popMin_eq_none])
      | some pr =>
        obtain ⟨m, rest⟩ := pr
        simp only [Option.map_some']
        rw [hord m x]
        by_cases hlt : lt1 m x
        · simp [hlt]
        · simp [hlt]

theorem ucsP_sim (adj : Word → List Word) (goal : Word) :
    ∀ (f : Nat) (fr : List (Nat × Word × WPath)) (ex : List Word),
      ucsP adj goal f fr ex =
        astarP adj (fun _ => 0) goal f (fr.map (fun e => (e.1, e))) ex := by
  intro f
  induction f with
  | zero => intro fr ex; rfl
  | succ f ih =>
    intro fr ex
    have hmap := popMin_map (fun e => (e.1, e)) ucsLtB astarLtB
      (fun a b => astarLtB_embed a b) fr
    cases hpop : popMin ucsLtB fr with
    | none =>
      rw [hpop] at hmap
      simp only [Option.map_none'] at hmap
      simp [ucsP, astarP, hpop, hmap]
    | some pr =>
      obtain ⟨⟨c, u, p⟩, rest⟩ := pr
      rw [hpop] at hmap
      simp only [Option.map_some'] at hmap
      simp only [ucsP, astarP, hpop, hmap]
      by_cases hg : u = goal
      · simp [hg]
      · rw [if_neg hg, if_neg hg]
        by_cases hex : u ∈ ex
        · rw [if_pos hex, if_pos hex]
          exact ih rest ex
        · rw [if_neg hex, if_neg hex]
          rw [ih]
          congr 1
          rw [List.map_append, List.map_map]
          simp [Function.comp]

/-! ### Per-algorithm top-level correctness -/

theorem bfs_correct (g : Graph) (s t : Word) :
    ((breadth_first_search g s t).1 = none → ∀ n, ¬ Reach (lookupD g) s t n) ∧
    (∀ c p, (breadth_first_search g s t).1 = some (c, p) →
      IsPathTo (lookupD g) s p t ∧ p.length = c + 1 ∧ Reach (lookupD g) s t c ∧
      (∀ n, Reach (lookupD g) s t n → c ≤ n)) := by
  have htot := bfsAux_total g s t
  obtain ⟨r, hr⟩ := Option.isSome_iff_exists.mp htot
  obtain ⟨res, g2⟩ := r
  have hpure := bfsAux_pure (lookupD g) t (fuelBound g s) [(s, [s])] [s] g (fun _ => rfl)
  rw [hr] at hpure
  have hres : bfsP (lookupD g) t (fuelBound g s) [(s, [s])] [s] = some res := by
    simpa using hpure.symm
  have hrun := @bfsP_run (lookupD g) s t (fuelBound g s) [(s, [s])] [s]
    (bfsInv_init (lookupD g) s t)
  have hfst : (breadth_first_search g s t).1 = res := by
    unfold breadth_first_search
    rw [hr]
  constructor
  · intro hnone
    rw [hfst] at hnone
    subst hnone
    exact hrun.1 hres
  · intro c p hsome
    rw [hfst] at hsome
    subst hsome
    exact hrun.2 c p hres

theorem ucs_correct (g : Graph) (s t : Word) :
    ((uniform_cost_search g s t).1 = none → ∀ n, ¬ Reach (lookupD g) s t n) ∧
    (∀ c p, (uniform_cost_search g s t).1 = some (c, p) →
      IsPathTo (lookupD g) s p t ∧ p.length = c + 1 ∧ Reach (lookupD g) s t c ∧
      (∀ n, Reach (lookupD g) s t n → c ≤ n)) := by
  have htot := ucsAux_total g s t
  obtain ⟨r, hr⟩ := Option.isSome_iff_exists.mp htot
  obtain ⟨res, g2⟩ := r
  have hpure := ucsAux_pure (lookupD g) t (fuelBound g s) [(0, s, [s])] [] g (fun _ => rfl)
  rw [hr] at hpure
  have hres : ucsP (lookupD g) t (fuelBound g s) [(0, s, [s])] [] = some res := by
    simpa using hpure.symm
  rw [ucsP_sim] at hres
  have hmap : ([(0, s, [s])].map (fun e : Nat × Word × WPath => (e.1, e))) =
      [(0, 0, s, [s])] := rfl
  rw [hmap] at hres
  have hH : ∀ u v : Word, v ∈ lookupD g u → (fun _ : Word => 0) u ≤ (fun _ : Word => 0) v + 1 :=
    fun u v _ => by show (0 : Nat) ≤ 0 + 1; omega
  have hrun := @astarP_run (lookupD g) (fun _ => 0) s t hH (fuelBound g s)
    [(0, 0, s, [s])] []
    (astarInv_init (lookupD g) (fun _ => 0) s t (by simp))
  have hfst : (uniform_cost_search g s t).1 = res := by
    unfold uniform_cost_search
    rw [hr]
  constructor
  · intro hnone
    rw [hfst] at hnone
    subst hnone
    exact hrun.1 hres
  · intro c p hsome
    rw [hfst] at hsome
    subst hsome
    exact hrun.2 c p hres

theorem astar_correct (g : Graph) (s t : Word)
    (hH : ∀ u v : Word, v ∈ lookupD g u → heuristic u t ≤ heuristic v t + 1) :
    ((a_star_search g s t).1 = none → ∀ n, ¬ Reach (lookupD g) s t n) ∧
    (∀ c p, (a_star_search g s t).1 = some (c, p) →
      IsPathTo (lookupD g) s p t ∧ p.length = c + 1 ∧ Reach (lookupD g) s t c ∧
      (∀ n, Reach (lookupD g) s t n → c ≤ n)) := by
  have htot := astarAux_total g s t
  obtain ⟨r, hr⟩ := Option.isSome_iff_exists.mp htot
  obtain ⟨res, g2⟩ := r
  have hpure := astarAux_pure (lookupD g) (fun w => heuristic w t) t (fuelBound g s)
    [(heuristic s t, 0, s, [s])] [] g (fun _ => rfl)
  rw [hr] at hpure
  have hres : astarP (lookupD g) (fun w => heuristic w t) t (fuelBound g s)
      [(heuristic s t, 0, s, [s])] [] = some res := by
    simpa using hpure.symm
  have hrun := @astarP_run (lookupD g) (fun w => heuristic w t) s t hH (fuelBound g s)
    [(heuristic s t, 0, s, [s])] []
    (astarInv_init (lookupD g) (fun w => heuristic w t) s t (by simp))
  have hfst : (a_star_search g s t).1 = res := by
    unfold a_star_search
    rw [hr]
  constructor
  · intro hnone
    rw [hfst] at hnone
    subst hnone
    exact hrun.1 hres
  · intro c p hsome
    rw [hfst] at hsome
    subst hsome
    exact hrun.2 c p hres

/-- Lightweight soundness of `a_star_search` (no heuristic assumptions):
a returned result is a valid path of the recorded cost. -/
theorem astar_sound (g : Graph) (s t : Word) :
    ∀ c p, (a_star_search g s t).1 = some (c, p) →
      IsPathTo (lookupD g) s p t ∧ p.length = c + 1 := by
  have htot := astarAux_total g s t
  obtain ⟨r, hr⟩ := Option.isSome_iff_exists.mp htot
  obtain ⟨res, g2⟩ := r
  have hpure := astarAux_pure (lookupD g) (fun w => heuristic w t) t (fuelBound g s)
    [(heuristic s t, 0, s, [s])] [] g (fun _ => rfl)
  rw [hr] at hpure
  have hres : astarP (lookupD g) (fun w => heuristic w t) t (fuelBound g s)
      [(heuristic s t, 0, s, [s])] [] = some res := by
    simpa using hpure.symm
  have hfst : (a_star_search g s t).1 = res := by
    unfold a_star_search
    rw [hr]
  intro c p hsome
  rw [hfst] at hsome
  subst hsome
  refine astarP_sound (fuelBound g s) [(heuristic s t, 0, s, [s])] [] ?_ c p hres
  intro e he
  simp only [List.mem_singleton] at he
  subst he
  exact ⟨isPathTo_singleton _ s, rfl⟩

/-! ### `check_path_exists` soundness -/

theorem cpeP_sound (adj : Word → List Word) (s target : Word) :
    ∀ (f : Nat) (q vis : List Word),
      (∀ w ∈ q, ∃ n, Reach adj s w n) →
      cpeP adj target f q vis = some true → ∃ n, Reach adj s target n := by
  intro f
  induction f with
  | zero => intro q vis _ hres; simp [cpeP] at hres
  | succ f ih =>
    intro q vis hq hres
    cases q with
    | nil => simp [cpeP] at hres
    | cons w rest =>
      simp only [cpeP] at hres
      cases hscan : cpeScan target (adj w) vis rest with
      | none =>
        have htmem : target ∈ adj w := (cpeScan_none_iff target _ _ _).mp hscan
        obtain ⟨n, hn⟩ := hq w (List.mem_cons_self _ _)
        exact ⟨n + 1, reach_snoc hn htmem⟩
      | some vq =>
        obtain ⟨vis', q'⟩ := vq
        rw [hscan] at hres
        obtain ⟨ws, h1, h2, -, h4⟩ := cpeScan_some_spec target _ _ _ _ _ hscan
        refine ih q' vis' ?_ hres
        intro x hx
        rw [h2] at hx
        rcases List.mem_append.mp hx with hx2 | hx2
        · exact hq x (List.mem_cons_of_mem _ hx2)
        · obtain ⟨n, hn⟩ := hq w (List.mem_cons_self _ _)
          exact ⟨n + 1, reach_snoc hn (h4 x hx2).1⟩

theorem cpe_correct (g : Graph) (s t : Word) (hs : ¬ s = t) :
    (check_path_exists g s t).1 = true → ∃ n, Reach (lookupD g) s t n := by
  intro hres
  have htot := cpeAux_total g s t
  obtain ⟨r, hr⟩ := Option.isSome_iff_exists.mp htot
  obtain ⟨res, g2⟩ := r
  have hpure := cpeAux_pure (lookupD g) t (fuelBound g s) [s] [s] g (fun _ => rfl)
  rw [hr] at hpure
  have hres2 : cpeP (lookupD g) t (fuelBound g s) [s] [s] = some res := by
    simpa using hpure.symm
  have hfst : (check_path_exists g s t).1 = res := by
    unfold check_path_exists
    rw [if_neg hs, hr]
  rw [hfst] at hres
  subst hres
  refine cpeP_sound (lookupD g) s t (fuelBound g s) [s] [s] ?_ hres2
  intro w hw
  simp only [List.mem_singleton] at hw
  subst hw
  exact ⟨0, Reach.refl w⟩

end WordLadder

namespace WordLadder

/-- Claim C2: on any word graph whose adjacencies join words differing in
exactly one letter (as every built word graph does), and for any (start, goal)
pair with the goal reachable, BFS, UCS and A* all report the identical cost,
and each reported path has length `cost + 1`, begins at start, ends at goal,
steps one letter at a time, and keeps every word after the start inside the
graph's word set. -/
theorem claim2 (g : Graph) (s t : Word)
    (hEdge : ∀ u v : Word, v ∈ lookupD g u → oneDiff u v)
    (hReach : ∃ n, Reach (lookupD g) s t n) :
    ∃ c pb pu pa,
      (breadth_first_search g s t).1 = some (c, pb) ∧
      (uniform_cost_search g s t).1 = some (c, pu) ∧
      (a_star_search g s t).1 = some (c, pa) ∧
      ∀ p, (p = pb ∨ p = pu ∨ p = pa) →
        p.length = c + 1 ∧ p.head? = some s ∧ p.getLast? = some t ∧
        List.Chain' oneDiff p ∧ ∀ w ∈ p.tail, w ∈ wordsOf g := by
  obtain ⟨n0, hn0⟩ := hReach
  have hH : ∀ u v : Word, v ∈ lookupD g u → heuristic u t ≤ heuristic v t + 1 :=
    fun u v hmem => oneDiff_heuristic_step (hEdge u v hmem)
  have hb := bfs_correct g s t
  have hu2 := ucs_correct g s t
  have ha := astar_correct g s t hH
  cases hbres : (breadth_first_search g s t).1 with
  | none => exact absurd hn0 (hb.1 hbres n0)
  | some cp =>
  obtain ⟨cb, pb⟩ := cp
  cases hures : (uniform_cost_search g s t).1 with
  | none => exact absurd hn0 (hu2.1 hures n0)
  | some cp2 =>
  obtain ⟨cu, pu⟩ := cp2
  cases hares : (a_star_search g s t).1 with
  | none => exact absurd hn0 (ha.1 hares n0)
  | some cp3 =>
  obtain ⟨ca, pa⟩ := cp3
  obtain ⟨hbpath, hblen, hbreach, hbmin⟩ := hb.2 cb pb hbres
  obtain ⟨hupath, hulen, hureach, humin⟩ := hu2.2 cu pu hures
  obtain ⟨hapath, halen, hareach, hamin⟩ := ha.2 ca pa hares
  have hcu : cb = cu := Nat.le_antisymm (hbmin cu hureach) (humin cb hbreach)
  have hca : cb = ca := Nat.le_antisymm (hbmin ca hareach) (hamin cb hbreach)
  have props : ∀ (c : Nat) (p : WPath), IsPathTo (lookupD g) s p t → p.length = c + 1 →
      p.length = c + 1 ∧ p.head? = some s ∧ p.getLast? = some t ∧
      List.Chain' oneDiff p ∧ ∀ w ∈ p.tail, w ∈ wordsOf g := by
    intro c p hpath hlen
    obtain ⟨h1, h2, h3⟩ := hpath
    refine ⟨hlen, h1, h2, ?_, ?_⟩
    · exact List.Chain'.imp (fun a b hab => hEdge a b hab) h3
    · intro w hw
      obtain ⟨a, hab⟩ := chain'_tail_pred h3 w hw
      exact List.mem_append_right _ (mem_valsOf_of_mem_lookupD hab)
  refine ⟨cb, pb, pu, pa, rfl, by rw [hcu], by rw [hca], ?_⟩
  intro p hp
  rcases hp with rfl | rfl | rfl
  · exact props cb p hbpath hblen
  · exact props cb p hupath (by rw [hcu]; exact hulen)
  · exact props cb p hapath (by rw [hca]; exact halen)

set_option maxRecDepth 10000 in
/-- Witness for C2 on the dictionary `{"cat","hat","hot"}` with start `"cat"`
and goal `"hot"` (reachable in two steps through `"hat"`). -/
theorem claim2_witness :
    ∃ c pb pu pa,
      (breadth_first_search (build_word_graph [wd "cat", wd "hat", wd "hot"] none)
        (wd "cat") (wd "hot")).1 = some (c, pb) ∧
      (uniform_cost_search (build_word_graph [wd "cat", wd "hat", wd "hot"] none)
        (wd "cat") (wd "hot")).1 = some (c, pu) ∧
      (a_star_search (build_word_graph [wd "cat", wd "hat", wd "hot"] none)
        (wd "cat") (wd "hot")).1 = some (c, pa) ∧
      ∀ p, (p = pb ∨ p = pu ∨ p = pa) →
        p.length = c + 1 ∧ p.head? = some (wd "cat") ∧ p.getLast? = some (wd "hot") ∧
        List.Chain' oneDiff p ∧
        ∀ w ∈ p.tail, w ∈ wordsOf (build_word_graph [wd "cat", wd "hat", wd "hot"] none) :=
  claim2 (build_word_graph [wd "cat", wd "hat", wd "hot"] none) (wd "cat") (wd "hot")
    (fun u v h => build_oneDiff h)
    ⟨2, Reach.step
      (show wd "hat" ∈ lookupD (build_word_graph [wd "cat", wd "hat", wd "hot"] none)
        (wd "cat") by decide)
      (Reach.step
        (show wd "hot" ∈ lookupD (build_word_graph [wd "cat", wd "hat", wd "hot"] none)
          (wd "hat") by decide)
        (Reach.refl (wd "hot")))⟩

theorem searches_none_of_unreach (g : Graph) (s t : Word) (hs : ¬ s = t)
    (hur : ∀ n, ¬ Reach (lookupD g) s t n) :
    (breadth_first_search g s t).1 = none ∧
    (uniform_cost_search g s t).1 = none ∧
    (a_star_search g s t).1 = none ∧
    (check_path_exists g s t).1 = false := by
  refine ⟨?_, ?_, ?_, ?_⟩
  · cases hres : (breadth_first_search g s t).1 with
    | none => rfl
    | some cp =>
      obtain ⟨c, p⟩ := cp
      exact absurd ((bfs_correct g s t).2 c p hres).2.2.1 (hur c)
  · cases hres : (uniform_cost_search g s t).1 with
    | none => rfl
    | some cp =>
      obtain ⟨c, p⟩ := cp
      exact absurd ((ucs_correct g s t).2 c p hres).2.2.1 (hur c)
  · cases hres : (a_star_search g s t).1 with
    | none => rfl
    | some cp =>
      obtain ⟨c, p⟩ := cp
      obtain ⟨hpath, hlen⟩ := astar_sound g s t c p hres
      have := isPathTo_reach hpath
      exact absurd this (hur _)
  · cases hres : (check_path_exists g s t).1 with
    | false => rfl
    | true =>
      obtain ⟨n, hn⟩ := cpe_correct g s t hs hres
      exact absurd hn (hur n)

/-- Claim C8: when the goal differs from the start and is unreachable through
the graph's adjacency entries, all three searches return the absent result and
`check_path_exists` returns `False`. -/
theorem claim8 (g : Graph) (s t : Word) (hs : s ≠ t)
    (hur : ∀ n, ¬ Reach (lookupD g) s t n) :
    (breadth_first_search g s t).1 = none ∧
    (uniform_cost_search g s t).1 = none ∧
    (a_star_search g s t).1 = none ∧
    (check_path_exists g s t).1 = false :=
  searches_none_of_unreach g s t hs hur

set_option maxRecDepth 10000 in
/-- Witness for C8 on the dictionary `{"cat","dog"}`: the built graph has no
edges, so `"dog"` is unreachable from `"cat"`. -/
theorem claim8_witness :
    (breadth_first_search (build_word_graph [wd "cat", wd "dog"] none)
      (wd "cat") (wd "dog")).1 = none ∧
    (uniform_cost_search (build_word_graph [wd "cat", wd "dog"] none)
      (wd "cat") (wd "dog")).1 = none ∧
    (a_star_search (build_word_graph [wd "cat", wd "dog"] none)
      (wd "cat") (wd "dog")).1 = none ∧
    (check_path_exists (build_word_graph [wd "cat", wd "dog"] none)
      (wd "cat") (wd "dog")).1 = false := by
  have hg : build_word_graph [wd "cat", wd "dog"] none = ([] : Graph) := by decide
  refine claim8 _ _ _ (by decide) ?_
  intro n h
  rw [hg] at h
  have := reach_nil_graph h
  exact absurd this (by decide)

set_option maxRecDepth 10000 in
/-- Counterexample to C5 as stated: a query whose start and goal have
different lengths is not rejected with any error signal; the search runs and
silently returns the "no path" result (the code has no error channel at all),
here BFS on the dictionary `{"hot","hat"}` with start `"hot"` and the
four-letter goal `"word"`. -/
theorem claim5_counterexample :
    (breadth_first_search (build_word_graph [wd "hot", wd "hat"] none)
      (wd "hot") (wd "word")).1 = none := by
  decide

/-- Claim C5, amended: queries whose start and goal lengths differ are not
rejected by an explicit InvalidInput signal — the search functions have no
error outcome; instead every strategy silently returns the "no path" result
(and `check_path_exists` returns `False`), because the built graph's edges
preserve word length, so a goal of different length is unreachable. -/
theorem claim5 (dict : List Word) (policy : Option (List Word × List Char)) (s t : Word)
    (hlen : s.length ≠ t.length) :
    (breadth_first_search (build_word_graph dict policy) s t).1 = none ∧
    (uniform_cost_search (build_word_graph dict policy) s t).1 = none ∧
    (a_star_search (build_word_graph dict policy) s t).1 = none ∧
    (check_path_exists (build_word_graph dict policy) s t).1 = false := by
  have hs : ¬ s = t := fun hh => hlen (by rw [hh])
  have hur : ∀ n, ¬ Reach (lookupD (build_word_graph dict policy)) s t n := by
    intro n h
    exact hlen (reach_length (fun u v hm => build_oneDiff hm) h)
  exact searches_none_of_unreach _ s t hs hur

/-- Witness for the amended C5: a three-letter start and four-letter goal. -/
theorem claim5_witness :
    (breadth_first_search (build_word_graph [wd "hot", wd "hat"] none)
      (wd "hot") (wd "ward")).1 = none ∧
    (uniform_cost_search (build_word_graph [wd "hot", wd "hat"] none)
      (wd "hot") (wd "ward")).1 = none ∧
    (a_star_search (build_word_graph [wd "hot", wd "hat"] none)
      (wd "hot") (wd "ward")).1 = none ∧
    (check_path_exists (build_word_graph [wd "hot", wd "hat"] none)
      (wd "hot") (wd "ward")).1 = false :=
  claim5 [wd "hot", wd "hat"] none (wd "hot") (wd "ward") (by decide)

end WordLadder

namespace WordLadder

/-! ### C10: exploration discipline of the priority-queue searches -/

/-- The instrumentation of `ucsT` is faithful: its first component is
exactly the result of `ucsAux`. -/
theorem ucsT_fst (goal : Word) :
    ∀ (f : Nat) (fr : List (Nat × Word × WPath)) (ex : List Word) (g : Graph),
      (ucsT goal f fr ex g).1 = ucsAux goal f fr ex g := by
  intro f
  induction f with
  | zero => intro fr ex g; rfl
  | succ f ih =>
    intro fr ex g
    cases hpop : popMin ucsLtB fr with
    | none => simp only [ucsT, ucsAux, hpop]
    | some pr =>
      obtain ⟨⟨c, u, p⟩, rest⟩ := pr
      by_cases hg : u = goal
      · simp only [ucsT, ucsAux, hpop, if_pos hg]
      · by_cases hex : u ∈ ex
        · simp only [ucsT, ucsAux, hpop, if_neg hg, if_pos hex]
          exact ih rest ex g
        · simp only [ucsT, ucsAux, hpop, if_neg hg, if_neg hex]
          exact ih _ _ _

/-- Every word recorded in the `ucsT` expansion trace was outside the
explored set the loop started from. -/
theorem ucsT_fresh (goal : Word) :
    ∀ (f : Nat) (fr : List (Nat × Word × WPath)) (ex : List Word) (g : Graph),
      ∀ w ∈ (ucsT goal f fr ex g).2.1, ¬ w ∈ ex := by
  intro f
  induction f with
  | zero => intro fr ex g w hw; exact absurd hw (List.not_mem_nil w)
  | succ f ih =>
    intro fr ex g w hw
    cases hpop : popMin ucsLtB fr with
    | none =>
      simp only [ucsT, hpop] at hw
      exact absurd hw (List.not_mem_nil w)
    | some pr =>
      obtain ⟨⟨c, u, p⟩, rest⟩ := pr
      by_cases hg : u = goal
      · simp only [ucsT, hpop, if_pos hg] at hw
        exact absurd hw (List.not_mem_nil w)
      · by_cases hex : u ∈ ex
        · simp only [ucsT, hpop, if_neg hg, if_pos hex] at hw
          exact ih rest ex g w hw
        · simp only [ucsT, hpop, if_neg hg, if_neg hex] at hw
          rcases List.mem_cons.mp hw with hwu | hwr
          · subst hwu; exact hex
          · exact fun hwex => ih _ _ _ w hwr (List.mem_cons_of_mem u hwex)

/-- The `ucsT` expansion trace has no duplicates: each word is expanded at
most once per search. -/
theorem ucsT_nodup (goal : Word) :
    ∀ (f : Nat) (fr : List (Nat × Word × WPath)) (ex : List Word) (g : Graph),
      ((ucsT goal f fr ex g).2.1).Nodup := by
  intro f
  induction f with
  | zero => intro fr ex g; exact List.nodup_nil
  | succ f ih =>
    intro fr ex g
    cases hpop : popMin ucsLtB fr with
    | none =>
      simp only [ucsT, hpop]
      exact List.nodup_nil
    | some pr =>
      obtain ⟨⟨c, u, p⟩, rest⟩ := pr
      by_cases hg : u = goal
      · simp only [ucsT, hpop, if_pos hg]
        exact List.nodup_nil
      · by_cases hex : u ∈ ex
        · simp only [ucsT, hpop, if_neg hg, if_pos hex]
          exact ih rest ex g
        · simp only [ucsT, hpop, if_neg hg, if_neg hex]
          refine List.nodup_cons.mpr ⟨?_, ih _ _ _⟩
          intro hu
          exact ucsT_fresh goal f _ (u :: ex) _ u hu (List.mem_cons_self u ex)

/-- The explored set only grows during `ucsAux`: the starting explored set
is a suffix of the final one (new words are only consed on). -/
theorem ucsT_grow (goal : Word) :
    ∀ (f : Nat) (fr : List (Nat × Word × WPath)) (ex : List Word) (g : Graph),
      ex <:+ (ucsT goal f fr ex g).2.2 := by
  intro f
  induction f with
  | zero => intro fr ex g; exact List.suffix_refl ex
  | succ f ih =>
    intro fr ex g
    cases hpop : popMin ucsLtB fr with
    | none =>
      simp only [ucsT, hpop]
      exact List.suffix_refl ex
    | some pr =>
      obtain ⟨⟨c, u, p⟩, rest⟩ := pr
      by_cases hg : u = goal
      · simp only [ucsT, hpop, if_pos hg]
        exact List.suffix_refl ex
      · by_cases hex : u ∈ ex
        · simp only [ucsT, hpop, if_neg hg, if_pos hex]
          exact ih rest ex g
        · simp only [ucsT, hpop, if_neg hg, if_neg hex]
          exact List.IsSuffix.trans (List.suffix_cons u ex) (ih _ _ _)

/-- Popping an already-explored non-goal word is a pure skip: the whole
instrumented state (result, trace, explored) continues on the remaining
frontier with the same explored set and the same graph, with no expansion
and no `accessD` graph access. -/
theorem ucsT_skip (goal : Word) (f : Nat) (fr : List (Nat × Word × WPath))
    (ex : List Word) (g : Graph) (c : Nat) (u : Word) (p : WPath)
    (rest : List (Nat × Word × WPath))
    (hpop : popMin ucsLtB fr = some ((c, u, p), rest))
    (hg : u ≠ goal) (hex : u ∈ ex) :
    ucsT goal (f + 1) fr ex g = ucsT goal f rest ex g := by
  simp only [ucsT, hpop, if_neg hg, if_pos hex]

/-- The instrumentation of `astarT` is faithful: its first component is
exactly the result of `astarAux`. -/
theorem astarT_fst (h : Word → Nat) (goal : Word) :
    ∀ (f : Nat) (fr : List (Nat × Nat × Word × WPath)) (ex : List Word) (g : Graph),
      (astarT h goal f fr ex g).1 = astarAux h goal f fr ex g := by
  intro f
  induction f with
  | zero => intro fr ex g; rfl
  | succ f ih =>
    intro fr ex g
    cases hpop : popMin astarLtB fr with
    | none => simp only [astarT, astarAux, hpop]
    | some pr =>
      obtain ⟨⟨pri, c, u, p⟩, rest⟩ := pr
      by_cases hg : u = goal
      · simp only [astarT, astarAux, hpop, if_pos hg]
      · by_cases hex : u ∈ ex
        · simp only [astarT, astarAux, hpop, if_neg hg, if_pos hex]
          exact ih rest ex g
        · simp only [astarT, astarAux, hpop, if_neg hg, if_neg hex]
          exact ih _ _ _

/-- Every word recorded in the `astarT` expansion trace was outside the
explored set the loop started from. -/
theorem astarT_fresh (h : Word → Nat) (goal : Word) :
    ∀ (f : Nat) (fr : List (Nat × Nat × Word × WPath)) (ex : List Word) (g : Graph),
      ∀ w ∈ (astarT h goal f fr ex g).2.1, ¬ w ∈ ex := by
  intro f
  induction f with
  | zero => intro fr ex g w hw; exact absurd hw (List.not_mem_nil w)
  | succ f ih =>
    intro fr ex g w hw
    cases hpop : popMin astarLtB fr with
    | none =>
      simp only [astarT, hpop] at hw
      exact absurd hw (List.not_mem_nil w)
    | some pr =>
      obtain ⟨⟨pri, c, u, p⟩, rest⟩ := pr
      by_cases hg : u = goal
      · simp only [astarT, hpop, if_pos hg] at hw
        exact absurd hw (List.not_mem_nil w)
      · by_cases hex : u ∈ ex
        · simp only [astarT, hpop, if_neg hg, if_pos hex] at hw
          exact ih rest ex g w hw
        · simp only [astarT, hpop, if_neg hg, if_neg hex] at hw
          rcases List.mem_cons.mp hw with hwu | hwr
          · subst hwu; exact hex
          · exact fun hwex => ih _ _ _ w hwr (List.mem_cons_of_mem u hwex)

/-- The `astarT` expansion trace has no duplicates: each word is expanded
at most once per search. -/
theorem astarT_nodup (h : Word → Nat) (goal : Word) :
    ∀ (f : Nat) (fr : List (Nat × Nat × Word × WPath)) (ex : List Word) (g : Graph),
      ((astarT h goal f fr ex g).2.1).Nodup := by
  intro f
  induction f with
  | zero => intro fr ex g; exact List.nodup_nil
  | succ f ih =>
    intro fr ex g
    cases hpop : popMin astarLtB fr with
    | none =>
      simp only [astarT, hpop]
      exact List.nodup_nil
    | some pr =>
      obtain ⟨⟨pri, c, u, p⟩, rest⟩ := pr
      by_cases hg : u = goal
      · simp only [astarT, hpop, if_pos hg]
        exact List.nodup_nil
      · by_cases hex : u ∈ ex
        · simp only [astarT, hpop, if_neg hg, if_pos hex]
          exact ih rest ex g
        · simp only [astarT, hpop, if_neg hg, if_neg hex]
          refine List.nodup_cons.mpr ⟨?_, ih _ _ _⟩
          intro hu
          exact astarT_fresh h goal f _ (u :: ex) _ u hu (List.mem_cons_self u ex)

/-- The explored set only grows during `astarAux`: the starting explored
set is a suffix of the final one. -/
theorem astarT_grow (h : Word → Nat) (goal : Word) :
    ∀ (f : Nat) (fr : List (Nat × Nat × Word × WPath)) (ex : List Word) (g : Graph),
      ex <:+ (astarT h goal f fr ex g).2.2 := by
  intro f
  induction f with
  | zero => intro fr ex g; exact List.suffix_refl ex
  | succ f ih =>
    intro fr ex g
    cases hpop : popMin astarLtB fr with
    | none =>
      simp only [astarT, hpop]
      exact List.suffix_refl ex
    | some pr =>
      obtain ⟨⟨pri, c, u, p⟩, rest⟩ := pr
      by_cases hg : u = goal
      · simp only [astarT, hpop, if_pos hg]
        exact List.suffix_refl ex
      · by_cases hex : u ∈ ex
        · simp only [astarT, hpop, if_neg hg, if_pos hex]
          exact ih rest ex g
        · simp only [astarT, hpop, if_neg hg, if_neg hex]
          exact List.IsSuffix.trans (List.suffix_cons u ex) (ih _ _ _)

/-- Popping an already-explored non-goal word in A* is a pure skip, with
no expansion and no graph access. -/
theorem astarT_skip (h : Word → Nat) (goal : Word) (f : Nat)
    (fr : List (Nat × Nat × Word × WPath)) (ex : List Word) (g : Graph)
    (pri c : Nat) (u : Word) (p : WPath)
    (rest : List (Nat × Nat × Word × WPath))
    (hpop : popMin astarLtB fr = some ((pri, c, u, p), rest))
    (hg : u ≠ goal) (hex : u ∈ ex) :
    astarT h goal (f + 1) fr ex g = astarT h goal f rest ex g := by
  simp only [astarT, hpop, if_neg hg, if_pos hex]

/-- Claim C10: in `uniform_cost_search` and `a_star_search` the explored
set only grows during a search (the starting explored set is a suffix of
the final one), every word's neighbours are expanded at most once per
search (the expansion trace of the faithfully instrumented loop has no
duplicates — a word may well sit in several frontier entries at once),
and any pop of an already-explored non-goal word is a pure skip: the loop
continues on the remaining frontier with the same explored set and graph,
performing no expansion and no graph access. -/
theorem claim10 :
    (∀ (goal : Word) (f : Nat) (fr : List (Nat × Word × WPath)) (ex : List Word)
        (g : Graph),
      (ucsT goal f fr ex g).1 = ucsAux goal f fr ex g ∧
      ex <:+ (ucsT goal f fr ex g).2.2 ∧
      ((ucsT goal f fr ex g).2.1).Nodup) ∧
    (∀ (goal : Word) (f : Nat) (fr : List (Nat × Word × WPath)) (ex : List Word)
        (g : Graph) (c : Nat) (u : Word) (p : WPath)
        (rest : List (Nat × Word × WPath)),
      popMin ucsLtB fr = some ((c, u, p), rest) → u ≠ goal → u ∈ ex →
      ucsT goal (f + 1) fr ex g = ucsT goal f rest ex g) ∧
    (∀ (h : Word → Nat) (goal : Word) (f : Nat)
        (fr : List (Nat × Nat × Word × WPath)) (ex : List Word) (g : Graph),
      (astarT h goal f fr ex g).1 = astarAux h goal f fr ex g ∧
      ex <:+ (astarT h goal f fr ex g).2.2 ∧
      ((astarT h goal f fr ex g).2.1).Nodup) ∧
    (∀ (h : Word → Nat) (goal : Word) (f : Nat)
        (fr : List (Nat × Nat × Word × WPath)) (ex : List Word) (g : Graph)
        (pri c : Nat) (u : Word) (p : WPath)
        (rest : List (Nat × Nat × Word × WPath)),
      popMin astarLtB fr = some ((pri, c, u, p), rest) → u ≠ goal → u ∈ ex →
      astarT h goal (f + 1) fr ex g = astarT h goal f rest ex g) := by
  refine ⟨?_, ?_, ?_, ?_⟩
  · intro goal f fr ex g
    exact ⟨ucsT_fst goal f fr ex g, ucsT_grow goal f fr ex g, ucsT_nodup goal f fr ex g⟩
  · intro goal f fr ex g c u p rest hpop hg hex
    exact ucsT_skip goal f fr ex g c u p rest hpop hg hex
  · intro h goal f fr ex g
    exact ⟨astarT_fst h goal f fr ex g, astarT_grow h goal f fr ex g,
      astarT_nodup h goal f fr ex g⟩
  · intro h goal f fr ex g pri c u p rest hpop hg hex
    exact astarT_skip h goal f fr ex g pri c u p rest hpop hg hex

set_option maxRecDepth 10000 in
/-- Witness for C10: faithfulness of the instrumentation at a concrete
state, and concrete skip steps — in both searches, popping the
already-explored word "a" (goal "b") continues on the emptied frontier
with the explored set unchanged. -/
theorem claim10_witness :
    ((ucsT (wd "b") 1 [(0, wd "a", [wd "a"])] [wd "a"] []).1 =
        ucsAux (wd "b") 1 [(0, wd "a", [wd "a"])] [wd "a"] []) ∧
    ucsT (wd "b") 1 [(0, wd "a", [wd "a"])] [wd "a"] [] =
        ucsT (wd "b") 0 [] [wd "a"] [] ∧
    astarT (fun _ => 0) (wd "b") 1 [(0, 0, wd "a", [wd "a"])] [wd "a"] [] =
        astarT (fun _ => 0) (wd "b") 0 [] [wd "a"] [] := by
  refine ⟨(claim10.1 (wd "b") 1 [(0, wd "a", [wd "a"])] [wd "a"] []).1, ?_, ?_⟩
  · exact claim10.2.1 (wd "b") 0 [(0, wd "a", [wd "a"])] [wd "a"] [] 0 (wd "a")
      [wd "a"] [] rfl (by decide) (by decide)
  · exact claim10.2.2.2 (fun _ => 0) (wd "b") 0 [(0, 0, wd "a", [wd "a"])] [wd "a"]
      [] 0 0 (wd "a") [wd "a"] [] rfl (by decide) (by decide)

end WordLadder
